import Mathlib

/-!
Verification of the openspace route-tree resolution engine.

This file gives a shallow embedding, in Lean 4, of the core of the
repository: the segment parser (src/unnamed/part_026, createParser), the
pattern builder (src/unnamed/part_001, createBuilder), the pattern matcher
(src/pathe/core/lib/matcher.ts, createMatcher), the path generator
(src/pathe/core/lib/static.ts, generatePath), the sibling sorter
(src/unnamed/part_001, createSorter), the tree validator
(src/unnamed/part_000, createValidator), the tree serializer
(src/routing/core/kernel/serializer.ts) and the generic adapter walk
(src/unnamed/part_027, define).

Modelling conventions:
- JavaScript strings are Lean `String`s; most work happens on `List Char`.
- JavaScript objects used as string-keyed maps are association lists in
  insertion order; assigning to an existing key updates it in place.
- A missing optional field (`slots`, `intercepts`) is modelled by an empty
  list: an empty-but-present field and an absent field behave identically
  in every embedded operation.
- JavaScript regular expressions are embedded as executable Lean scanners
  that implement the leftmost / greedy / backtracking semantics of the
  concrete regexes appearing in the source, over exactly the fragment the
  source constructs.
- `throw` is modelled with `Except String`.
-/

namespace Openspace

/-- Segment classification, the closed `SegmentType` union from
packages/pathe/types/segment.ts. -/
inductive SegmentType where
  | static
  | dynamic
  | catchAll
  | optionalCatchAll
  | group
  | parallel
  | interceptSame
  | interceptParent
  | interceptRoot
deriving DecidableEq

/-- Intercept level: a JavaScript number that is either a natural number or
`Infinity`. -/
inductive Level where
  | fin (n : Nat)
  | inf
deriving DecidableEq

/-- Classified path segment `{raw, type, name?, level?}` from
packages/pathe/types/segment.ts. -/
structure Segment where
  raw : String
  type : SegmentType
  name : Option String := none
  level : Option Level := none
deriving DecidableEq

/-- Character class of the JavaScript regex token `\w`. -/
def isWordChar (c : Char) : Bool :=
  c.isAlphanum || c = '_'

/-- Regex `^\[\[\.\.\.(\w+)\]\]$` (OPTIONAL_CATCH_ALL): on success returns
the captured name. -/
def matchOptionalCatchAll : List Char → Option String
  | '[' :: '[' :: '.' :: '.' :: '.' :: rest =>
    let nm := rest.takeWhile isWordChar
    let tail := rest.dropWhile isWordChar
    if !nm.isEmpty && tail = [']', ']'] then some (String.mk nm) else none
  | _ => none

/-- Regex `^\[\.\.\.(\w+)\]$` (CATCH_ALL). -/
def matchCatchAll : List Char → Option String
  | '[' :: '.' :: '.' :: '.' :: rest =>
    let nm := rest.takeWhile isWordChar
    let tail := rest.dropWhile isWordChar
    if !nm.isEmpty && tail = [']'] then some (String.mk nm) else none
  | _ => none

/-- Regex `^\[(\w+)\]$` (DYNAMIC). -/
def matchDynamic : List Char → Option String
  | '[' :: rest =>
    let nm := rest.takeWhile isWordChar
    let tail := rest.dropWhile isWordChar
    if !nm.isEmpty && tail = [']'] then some (String.mk nm) else none
  | _ => none

/-- Regex `^\((\w+)\)$` (GROUP). -/
def matchGroup : List Char → Option String
  | '(' :: rest =>
    let nm := rest.takeWhile isWordChar
    let tail := rest.dropWhile isWordChar
    if !nm.isEmpty && tail = [')'] then some (String.mk nm) else none
  | _ => none

/-- Regex `^@(\w+)$` (PARALLEL). -/
def matchParallel : List Char → Option String
  | '@' :: rest =>
    let nm := rest.takeWhile isWordChar
    let tail := rest.dropWhile isWordChar
    if !nm.isEmpty && tail.isEmpty then some (String.mk nm) else none
  | _ => none

/-- Regex `^\(\.\.\.\)(\w+)$` (INTERCEPT_ROOT). -/
def matchInterceptRoot : List Char → Option String
  | '(' :: '.' :: '.' :: '.' :: ')' :: rest =>
    if !rest.isEmpty && rest.all isWordChar then some (String.mk rest) else none
  | _ => none

/-- Regex `^\(\.\)(\w+)$` (INTERCEPT_SAME). -/
def matchInterceptSame : List Char → Option String
  | '(' :: '.' :: ')' :: rest =>
    if !rest.isEmpty && rest.all isWordChar then some (String.mk rest) else none
  | _ => none

/-- Regex `^(\(\.\.?\))+(\w+)$` (INTERCEPT_PARENT): consume one or more
`(.)` or `(..)` groups, then a non-empty word run to the end.  The group
characters are not word characters, so backtracking over the group count
can never succeed where the greedy parse fails: the scan is deterministic. -/
def matchInterceptParentAux : List Char → Bool → Option String
  | '(' :: '.' :: '.' :: ')' :: rest, _ => matchInterceptParentAux rest true
  | '(' :: '.' :: ')' :: rest, _ => matchInterceptParentAux rest true
  | l, seen =>
    if seen && !l.isEmpty && l.all isWordChar then some (String.mk l) else none

/-- Regex `^(\(\.\.?\))+(\w+)$` over a whole string. -/
def matchInterceptParent (l : List Char) : Option String :=
  matchInterceptParentAux l false

/-- Count of non-overlapping, leftmost occurrences of `(..)` in a string:
the global regex `/\(\.\.\)/g` used to compute an interceptParent level. -/
def countParentGroups : List Char → Nat
  | '(' :: '.' :: '.' :: ')' :: rest => countParentGroups rest + 1
  | _ :: rest => countParentGroups rest
  | [] => 0

/-- Segment parser from src/unnamed/part_026 (createParser.parse): first
character dispatch over the bracket, paren and `@` rule families, with a
fallback to `static` for everything else. -/
def parse (raw : String) : Segment :=
  match raw.data with
  | [] => ⟨raw, .static, none, none⟩
  | c :: _ =>
    if c = '[' then
      match matchOptionalCatchAll raw.data with
      | some nm => ⟨raw, .optionalCatchAll, some nm, none⟩
      | none =>
        match matchCatchAll raw.data with
        | some nm => ⟨raw, .catchAll, some nm, none⟩
        | none =>
          match matchDynamic raw.data with
          | some nm => ⟨raw, .dynamic, some nm, none⟩
          | none => ⟨raw, .static, none, none⟩
    else if c = '(' then
      match matchInterceptRoot raw.data with
      | some nm => ⟨raw, .interceptRoot, some nm, some .inf⟩
      | none =>
        match matchInterceptSame raw.data with
        | some nm => ⟨raw, .interceptSame, some nm, some (.fin 0)⟩
        | none =>
          match matchInterceptParent raw.data with
          | some nm =>
            ⟨raw, .interceptParent, some nm, some (.fin (countParentGroups raw.data))⟩
          | none =>
            match matchGroup raw.data with
            | some nm => ⟨raw, .group, some nm, none⟩
            | none => ⟨raw, .static, none, none⟩
    else if c = '@' then
      match matchParallel raw.data with
      | some nm => ⟨raw, .parallel, some nm, none⟩
      | none => ⟨raw, .static, none, none⟩
    else
      ⟨raw, .static, none, none⟩

/-- List of all nine segment types: the closed set. -/
def allSegmentTypes : List SegmentType :=
  [.static, .dynamic, .catchAll, .optionalCatchAll, .group, .parallel,
   .interceptSame, .interceptParent, .interceptRoot]

/-- Decides whether `parse raw` is forced into the `static` fallback by the
claim's criterion: the first character opens no rule family, or the
bracket / paren / `@` forms match none of that family's rules. -/
def fallsToStatic (raw : String) : Bool :=
  match raw.data with
  | [] => true
  | c :: _ =>
    if c = '[' then
      (matchOptionalCatchAll raw.data).isNone
        && (matchCatchAll raw.data).isNone
        && (matchDynamic raw.data).isNone
    else if c = '(' then
      (matchInterceptRoot raw.data).isNone
        && (matchInterceptSame raw.data).isNone
        && (matchInterceptParent raw.data).isNone
        && (matchGroup raw.data).isNone
    else if c = '@' then
      (matchParallel raw.data).isNone
    else
      true

/-- C6: for every input string, `parse` returns a Segment whose type belongs
to the closed SegmentType set (and, being a total Lean function, never
throws); any string whose first character opens no bracket/paren/@ rule
family, or any bracket/paren/@ form matching no rule of its family, is
classified as static. -/
theorem c6_parse_total_and_static_fallback :
    (∀ raw : String, (parse raw).type ∈ allSegmentTypes) ∧
    (∀ raw : String, fallsToStatic raw = true →
      parse raw = ⟨raw, .static, none, none⟩) := by
  constructor
  · intro raw
    cases h : (parse raw).type <;> simp [allSegmentTypes]
  · intro raw h
    rcases hd : raw.data with _ | ⟨c, rest⟩
    · simp only [parse, hd]
    · simp only [parse, fallsToStatic, hd] at h ⊢
      by_cases hb : c = '['
      · simp only [if_pos hb] at h ⊢
        simp only [Bool.and_eq_true, Option.isNone_iff_eq_none] at h
        rw [h.1.1, h.1.2, h.2]
      · simp only [if_neg hb] at h ⊢
        by_cases hp : c = '('
        · simp only [if_pos hp] at h ⊢
          simp only [Bool.and_eq_true, Option.isNone_iff_eq_none] at h
          rw [h.1.1.1, h.1.1.2, h.1.2, h.2]
        · simp only [if_neg hp] at h ⊢
          by_cases ha : c = '@'
          · simp only [if_pos ha] at h ⊢
            simp only [Option.isNone_iff_eq_none] at h
            rw [h]
          · simp only [if_neg ha]

/-- Witness for C6: the fallback clause applied at concrete inputs — a
plain word, a malformed bracket form, a malformed paren form, and a
malformed parallel form all parse as static. -/
theorem c6_parse_total_and_static_fallback_witness :
    parse "hello" = ⟨"hello", .static, none, none⟩ ∧
    parse "[x!" = ⟨"[x!", .static, none, none⟩ ∧
    parse "(..oops" = ⟨"(..oops", .static, none, none⟩ ∧
    parse "@" = ⟨"@", .static, none, none⟩ :=
  ⟨c6_parse_total_and_static_fallback.2 "hello" (by decide),
   c6_parse_total_and_static_fallback.2 "[x!" (by decide),
   c6_parse_total_and_static_fallback.2 "(..oops" (by decide),
   c6_parse_total_and_static_fallback.2 "@" (by decide)⟩

/-- C7: `parse '(..)(..)photo'` yields an interceptParent segment named
`photo` with level 2 (the count of repeated `(..)` groups), and
`parse '[[...slug]]'` yields an optionalCatchAll segment named `slug`. -/
theorem c7_parse_literals :
    parse "(..)(..)photo" =
      ⟨"(..)(..)photo", .interceptParent, some "photo", some (.fin 2)⟩ ∧
    parse "[[...slug]]" =
      ⟨"[[...slug]]", .optionalCatchAll, some "slug", none⟩ := by
  decide

/-- Route `{segments, pattern}` from src/pathe/core/types/route.ts. -/
structure Route where
  segments : List Segment
  pattern : String
deriving DecidableEq

/-- Rendering of a possibly-missing segment name inside a JavaScript
template literal: an undefined name renders as the text `undefined`. -/
def nameText : Option String → String
  | some n => n
  | none => "undefined"

/-- Pattern tokens contributed by one segment in createBuilder.build
(src/unnamed/part_001): static pushes its raw text, dynamic `:name`,
catchAll `:name+`, optionalCatchAll `:name*`; group and parallel are
explicit no-op cases, and the intercept types fall out of the switch
without a matching case, likewise pushing nothing. -/
def buildTokens (s : Segment) : List String :=
  match s.type with
  | .static => [s.raw]
  | .dynamic => [":" ++ nameText s.name]
  | .catchAll => [":" ++ nameText s.name ++ "+"]
  | .optionalCatchAll => [":" ++ nameText s.name ++ "*"]
  | _ => []

/-- createBuilder.build from src/unnamed/part_001: tokens join with `/` and
the result is prefixed with a leading `/`. -/
def build (segments : List Segment) : Route :=
  ⟨segments, "/" ++ String.intercalate "/" (segments.map buildTokens).flatten⟩

mutual

/-- Route-tree node from src/unnamed/part_026 (RouteNode): segment,
component map (file kind → path), ordered children, parallel slots,
intercept list and optional middleware path.  An absent optional `slots` or
`intercepts` field is modelled by the empty list, which behaves identically
in every embedded operation. -/
inductive RouteNode where
  | mk (segment : Segment) (components : List (String × String))
       (children : NodeList) (slots : SlotList) (intercepts : NodeList)
       (middleware : Option String)

/-- Ordered list of route nodes (children / intercepts). -/
inductive NodeList where
  | nil
  | cons (head : RouteNode) (tail : NodeList)

/-- Ordered association list of named slots. -/
inductive SlotList where
  | nil
  | cons (name : String) (node : RouteNode) (tail : SlotList)

end

/-- Route tree `{root}` from src/unnamed/part_026. -/
structure RouteTree where
  root : RouteNode

/-- Segment of a node. -/
def RouteNode.segment : RouteNode → Segment
  | .mk s _ _ _ _ _ => s

/-- Component map of a node. -/
def RouteNode.components : RouteNode → List (String × String)
  | .mk _ c _ _ _ _ => c

/-- Children of a node. -/
def RouteNode.children : RouteNode → NodeList
  | .mk _ _ c _ _ _ => c

/-- Slots of a node. -/
def RouteNode.slots : RouteNode → SlotList
  | .mk _ _ _ s _ _ => s

/-- Intercepts of a node. -/
def RouteNode.intercepts : RouteNode → NodeList
  | .mk _ _ _ _ i _ => i

/-- Middleware of a node. -/
def RouteNode.middleware : RouteNode → Option String
  | .mk _ _ _ _ _ m => m

/-- Conversion of a NodeList to a plain list. -/
def NodeList.toList : NodeList → List RouteNode
  | .nil => []
  | .cons h t => h :: t.toList

/-- Conversion of a plain list to a NodeList. -/
def NodeList.ofList : List RouteNode → NodeList
  | [] => .nil
  | h :: t => .cons h (NodeList.ofList t)

/-- Conversion of a SlotList to a plain association list. -/
def SlotList.toList : SlotList → List (String × RouteNode)
  | .nil => []
  | .cons n v t => (n, v) :: t.toList

/-- Key lookup in a JavaScript object modelled as an association list:
the first binding of the key wins (object keys are unique). -/
def objGet (m : List (String × String)) (k : String) : Option String :=
  match m.find? (fun p => p.1 = k) with
  | some p => some p.2
  | none => none

/-- Membership test for the JavaScript `in` operator on an object. -/
def objHas (m : List (String × String)) (k : String) : Bool :=
  m.any (fun p => p.1 = k)

/-- SEGMENT_PRIORITY from src/unnamed/part_001: static/group/parallel and
the three intercept types map to 0, dynamic to 1, catchAll to 2,
optionalCatchAll to 3. -/
def segmentPriority : SegmentType → Nat
  | .static => 0
  | .dynamic => 1
  | .catchAll => 2
  | .optionalCatchAll => 3
  | .group => 0
  | .parallel => 0
  | .interceptSame => 0
  | .interceptParent => 0
  | .interceptRoot => 0

/-- createSorter.getPriority. -/
def getPriority (n : RouteNode) : Nat :=
  segmentPriority n.segment.type

/-- Three-way lexicographic comparison of char lists by code point,
modelling `String.prototype.localeCompare` as used by the sorter's
tie-break (locale-specific collation is modelled as code-point order). -/
def cmpChars : List Char → List Char → Int
  | [], [] => 0
  | [], _ :: _ => -1
  | _ :: _, [] => 1
  | a :: as, b :: bs =>
    if a < b then -1 else if b < a then 1 else cmpChars as bs

/-- createSorter.compare: priority difference first, then the raw-text
comparison as tie-break. -/
def compareNodes (a b : RouteNode) : Int :=
  let pd : Int := (getPriority a : Int) - (getPriority b : Int)
  if pd ≠ 0 then pd else cmpChars a.segment.raw.data b.segment.raw.data

/-- Boolean comparator feeding the sort: `compare(a, b) <= 0`. -/
def nodeLe (a b : RouteNode) : Bool :=
  compareNodes a b ≤ 0

/-- createSorter.sort: a stable comparator sort of a copy of the input
array (`[...nodes].sort(compare)`), modelled by a stable merge sort. -/
def sort (nodes : List RouteNode) : List RouteNode :=
  nodes.mergeSort nodeLe

/-- Swapping the arguments of cmpChars negates the result. -/
theorem cmpChars_swap : ∀ a b : List Char, cmpChars b a = -(cmpChars a b) := by
  intro a
  induction a with
  | nil => intro b; cases b <;> simp [cmpChars]
  | cons x xs ih =>
    intro b
    cases b with
    | nil => simp [cmpChars]
    | cons y ys =>
      rcases lt_trichotomy x y with h | h | h
      · simp [cmpChars, h, asymm h]
      · subst h
        simp [cmpChars, ih ys]
      · simp [cmpChars, h, asymm h]

/-- Transitivity of the lexicographic comparison. -/
theorem cmpChars_trans :
    ∀ a b c : List Char, cmpChars a b ≤ 0 → cmpChars b c ≤ 0 → cmpChars a c ≤ 0 := by
  intro a
  induction a with
  | nil => intro b c _ _; cases c <;> simp [cmpChars]
  | cons x xs ih =>
    intro b c h1 h2
    cases b with
    | nil => simp [cmpChars] at h1
    | cons y ys =>
      cases c with
      | nil => simp [cmpChars] at h2
      | cons z zs =>
        rcases lt_trichotomy x y with hxy | hxy | hxy
        · rcases lt_trichotomy y z with hyz | hyz | hyz
          · simp [cmpChars, lt_trans hxy hyz]
          · subst hyz; simp [cmpChars, hxy]
          · simp [cmpChars, asymm hyz, hyz] at h2
        · subst hxy
          simp only [cmpChars, lt_irrefl, if_false] at h1
          rcases lt_trichotomy x z with hxz | hxz | hxz
          · simp [cmpChars, hxz]
          · subst hxz
            simp only [cmpChars, lt_irrefl, if_false] at h2 ⊢
            exact ih ys zs h1 h2
          · simp [cmpChars, asymm hxz, hxz] at h2
        · simp [cmpChars, asymm hxy, hxy] at h1

/-- Characterization of a non-positive node comparison. -/
theorem compareNodes_le_iff (a b : RouteNode) :
    compareNodes a b ≤ 0 ↔
      (getPriority a < getPriority b ∨
        (getPriority a = getPriority b ∧
          cmpChars a.segment.raw.data b.segment.raw.data ≤ 0)) := by
  unfold compareNodes
  by_cases h : ((getPriority a : Int) - (getPriority b : Int)) ≠ 0
  · rw [if_pos h]
    constructor
    · intro hle
      left
      omega
    · intro hor
      rcases hor with hlt | ⟨heq, _⟩
      · omega
      · omega
  · rw [if_neg h]
    push_neg at h
    constructor
    · intro hle
      right
      exact ⟨by omega, hle⟩
    · intro hor
      rcases hor with hlt | ⟨_, hc⟩
      · omega
      · exact hc

/-- Transitivity of the boolean node comparator. -/
theorem nodeLe_trans (a b c : RouteNode) :
    nodeLe a b = true → nodeLe b c = true → nodeLe a c = true := by
  simp only [nodeLe, decide_eq_true_eq, compareNodes_le_iff]
  intro h1 h2
  rcases h1 with h1 | ⟨e1, c1⟩ <;> rcases h2 with h2 | ⟨e2, c2⟩
  · exact Or.inl (lt_trans h1 h2)
  · exact Or.inl (e2 ▸ h1)
  · exact Or.inl (e1 ▸ h2)
  · exact Or.inr ⟨e1.trans e2, cmpChars_trans _ _ _ c1 c2⟩

/-- Totality of the boolean node comparator. -/
theorem nodeLe_total (a b : RouteNode) :
    (nodeLe a b || nodeLe b a) = true := by
  simp only [nodeLe, Bool.or_eq_true, decide_eq_true_eq, compareNodes_le_iff]
  rcases lt_trichotomy (getPriority a) (getPriority b) with h | h | h
  · exact Or.inl (Or.inl h)
  · rcases le_or_lt (cmpChars a.segment.raw.data b.segment.raw.data) 0 with hc | hc
    · exact Or.inl (Or.inr ⟨h, hc⟩)
    · refine Or.inr (Or.inr ⟨h.symm, ?_⟩)
      rw [cmpChars_swap]
      omega
  · exact Or.inr (Or.inl h)

/-- C8: sort returns a list in which every adjacent pair of siblings has
non-decreasing priority, with equal priorities tie-broken by lexicographic
comparison of the raw segment text, and the output is a permutation of the
input (the sort copies the array; in this pure embedding the input is
necessarily unmutated, and arrange likewise rebuilds rather than mutates). -/
theorem c8_sort_order_and_perm (nodes : List RouteNode) :
    (sort nodes).Chain'
      (fun a b => getPriority a ≤ getPriority b ∧
        (getPriority a = getPriority b →
          cmpChars a.segment.raw.data b.segment.raw.data ≤ 0)) ∧
    (sort nodes).Perm nodes := by
  constructor
  · have hs : List.Pairwise (fun a b => nodeLe a b = true) (nodes.mergeSort nodeLe) :=
      List.sorted_mergeSort nodeLe_trans nodeLe_total nodes
    refine List.Chain'.imp ?_ hs.chain'
    intro a b hab
    rw [nodeLe, decide_eq_true_eq, compareNodes_le_iff] at hab
    rcases hab with h | ⟨h1, h2⟩
    · exact ⟨le_of_lt h, fun he => absurd he (ne_of_lt h)⟩
    · exact ⟨le_of_eq h1, fun _ => h2⟩
  · exact List.mergeSort_perm nodes nodeLe

/-- Closed set of validation error codes from src/unnamed/part_000. -/
inductive ValidationErrorType where
  | DUPLICATE_STATIC
  | MULTIPLE_DYNAMIC
  | DYNAMIC_CATCH_CONFLICT
  | MULTIPLE_CATCH_ALL
  | INVALID_SLOT_STRUCTURE
  | INVALID_INTERCEPT_STRUCTURE
  | ORPHAN_MIDDLEWARE
deriving DecidableEq

/-- ValidationError record from src/unnamed/part_000. -/
structure ValidationError where
  type : ValidationErrorType
  message : String
  path : String
  segments : List Segment
deriving DecidableEq

/-- ValidationResult record from src/unnamed/part_000. -/
structure ValidationResult where
  valid : Bool
  errors : List ValidationError
deriving DecidableEq

/-- First index of a string in a list (`Array.prototype.indexOf` on a list
that is known to contain the element). -/
def idxOf (s : String) : List String → Nat
  | [] => 0
  | x :: xs => if x = s then 0 else idxOf s xs + 1

/-- Names that occur at a position differing from their first occurrence:
`names.filter((name, index) => names.indexOf(name) !== index)`. -/
def dupNames (names : List String) : List String :=
  (names.enum.filter (fun p => idxOf p.2 names ≠ p.1)).map (fun p => p.2)

/-- Truthiness of an optional string (`undefined` and the empty string are
falsy). -/
def truthyStr : Option String → Bool
  | some s => !s.isEmpty
  | none => false

mutual

/-- Does a subtree own a `page` component, looking through children and
slots (hasPageInTree from src/unnamed/part_000)?  Intercepts are not
searched. -/
def hasPageInTree : RouteNode → Bool
  | .mk _ comps children slots _ _ =>
    objHas comps "page" || hasPageInNodeList children || hasPageInSlotList slots

/-- hasPageInTree over a child list. -/
def hasPageInNodeList : NodeList → Bool
  | .nil => false
  | .cons h t => hasPageInTree h || hasPageInNodeList t

/-- hasPageInTree over a slot list. -/
def hasPageInSlotList : SlotList → Bool
  | .nil => false
  | .cons _ v t => hasPageInTree v || hasPageInSlotList t

end

mutual

/-- validateNode from src/unnamed/part_000 (createValidator): own-level
sibling checks, then recursion into children, slots (with an
INVALID_SLOT_STRUCTURE check), intercepts (with an
INVALID_INTERCEPT_STRUCTURE check), and finally the orphan-middleware
check. -/
def validateNode : RouteNode → String → List ValidationError
  | .mk seg comps children slots intercepts mw, path =>
    let currentPath := path ++ (if seg.raw ≠ "" then "/" ++ seg.raw else "")
    let childSegs := children.toList.map RouteNode.segment
    let staticSegs := childSegs.filter (fun s => s.type = .static)
    let dynamicSegs := childSegs.filter (fun s => s.type = .dynamic)
    let catchAllSegs := childSegs.filter (fun s => s.type = .catchAll)
    let optionalCatchAllSegs := childSegs.filter (fun s => s.type = .optionalCatchAll)
    let staticNames := staticSegs.map Segment.raw
    let duplicateStatic := dupNames staticNames
    let dupErrs :=
      if duplicateStatic.length > 0 then
        [⟨.DUPLICATE_STATIC,
          "Duplicate static segments: " ++ String.intercalate ", " duplicateStatic,
          currentPath,
          staticSegs.filter (fun s => duplicateStatic.contains s.raw)⟩]
      else []
    let multiDynErrs :=
      if dynamicSegs.length > 1 then
        [⟨.MULTIPLE_DYNAMIC,
          "Multiple dynamic segments at same level: " ++
            String.intercalate ", " (dynamicSegs.map Segment.raw),
          currentPath, dynamicSegs⟩]
      else []
    let conflictErrs :=
      if dynamicSegs.length > 0 && (catchAllSegs.length > 0 || optionalCatchAllSegs.length > 0) then
        [⟨.DYNAMIC_CATCH_CONFLICT,
          "Dynamic segment conflicts with catch-all segment",
          currentPath, dynamicSegs ++ catchAllSegs ++ optionalCatchAllSegs⟩]
      else []
    let allCatchAll := catchAllSegs ++ optionalCatchAllSegs
    let multiCatchErrs :=
      if allCatchAll.length > 1 then
        [⟨.MULTIPLE_CATCH_ALL,
          "Multiple catch-all segments: " ++
            String.intercalate ", " (allCatchAll.map Segment.raw),
          currentPath, allCatchAll⟩]
      else []
    let mwErrs :=
      if truthyStr mw then
        if !(objHas comps "page" || hasPageInTree (.mk seg comps children slots intercepts mw)) then
          [⟨.ORPHAN_MIDDLEWARE,
            "Middleware at \x27" ++ (if currentPath ≠ "" then currentPath else "/") ++
              "\x27 has no associated page component",
            (if currentPath ≠ "" then currentPath else "/"), [seg]⟩]
        else []
      else []
    dupErrs ++ multiDynErrs ++ conflictErrs ++ multiCatchErrs ++
      validateChildren children currentPath ++
      validateSlots slots currentPath ++
      validateIntercepts intercepts currentPath ++
      mwErrs

/-- Recursion of validateNode over a child list. -/
def validateChildren : NodeList → String → List ValidationError
  | .nil, _ => []
  | .cons h t, currentPath =>
    validateNode h currentPath ++ validateChildren t currentPath

/-- Slot checks and recursion of validateNode over a slot list. -/
def validateSlots : SlotList → String → List ValidationError
  | .nil, _ => []
  | .cons nm node tail, currentPath =>
    let slotPath := currentPath ++ "/@" ++ nm
    let structuralErrs :=
      if !(objHas node.components "page" || objHas node.components "default")
          && !hasPageInTree node then
        [⟨.INVALID_SLOT_STRUCTURE,
          "Parallel route slot \x27@" ++ nm ++
            "\x27 must contain a \x27page\x27 or \x27default\x27 component",
          slotPath, [node.segment]⟩]
      else []
    structuralErrs ++ validateNode node slotPath ++ validateSlots tail currentPath

/-- Intercept checks and recursion of validateNode over an intercept
list.  The recursive call deliberately passes `currentPath`, not the
intercept path, mirroring the source. -/
def validateIntercepts : NodeList → String → List ValidationError
  | .nil, _ => []
  | .cons node tail, currentPath =>
    let interceptPath := currentPath ++ "/" ++ node.segment.raw
    let structuralErrs :=
      if !objHas node.components "page" then
        [⟨.INVALID_INTERCEPT_STRUCTURE,
          "Intercept route \x27" ++ node.segment.raw ++
            "\x27 must contain a \x27page\x27 component",
          interceptPath, [node.segment]⟩]
      else []
    structuralErrs ++ validateNode node currentPath ++ validateIntercepts tail currentPath

end

/-- createValidator.validate: one full traversal from the root with the
empty path; `valid` is the emptiness of the accumulated error list. -/
def validate (tree : RouteTree) : ValidationResult :=
  let errors := validateNode tree.root ""
  ⟨errors.isEmpty, errors⟩

/-- Leaf node used in the validator examples. -/
def leafNode (raw : String) (ty : SegmentType) (nm : Option String) : RouteNode :=
  .mk ⟨raw, ty, nm, none⟩ [("page", "/x/page.tsx")] .nil .nil .nil none

/-- Tree whose root has exactly two static children both named `blog`. -/
def dupBlogTree : RouteTree :=
  ⟨.mk ⟨"", .static, none, none⟩ []
    (.cons (leafNode "blog" .static none) (.cons (leafNode "blog" .static none) .nil))
    .nil .nil none⟩

/-- Tree whose root has a dynamic child `[id]` next to a catch-all child
`[...slug]`. -/
def conflictTree : RouteTree :=
  ⟨.mk ⟨"", .static, none, none⟩ []
    (.cons (leafNode "[id]" .dynamic (some "id"))
      (.cons (leafNode "[...slug]" .catchAll (some "slug")) .nil))
    .nil .nil none⟩

/-- C4: validate is a total Lean function (so it never throws) returning
`{valid, errors}` with `valid` true exactly when `errors` is empty; a
parent with exactly two static children both named `blog` yields exactly
one DUPLICATE_STATIC error, and a dynamic `[id]` child coexisting with a
catch-all `[...slug]` sibling yields exactly one DYNAMIC_CATCH_CONFLICT
error. -/
theorem c4_validate_shape_and_examples :
    (∀ t : RouteTree, ((validate t).valid = true ↔ (validate t).errors = [])) ∧
    (validate dupBlogTree).errors.countP
      (fun e => e.type = .DUPLICATE_STATIC) = 1 ∧
    (validate conflictTree).errors.countP
      (fun e => e.type = .DYNAMIC_CATCH_CONFLICT) = 1 := by
  refine ⟨fun t => ?_, by decide, by decide⟩
  simp [validate, List.isEmpty_iff]

/-- Parameter value: a string or a string array, from the
`Record(string, string | string[])` parameter maps. -/
inductive ParamValue where
  | str (s : String)
  | arr (l : List String)
deriving DecidableEq

/-- RouteMatch `{route, params}` from src/pathe/core/types; the params
object is an association list in insertion order. -/
structure RouteMatch where
  route : Route
  params : List (String × ParamValue)
deriving DecidableEq

/-- Replacement of the first occurrence of a (non-empty) literal search
string, as `String.prototype.replace(search, repl)` behaves for
replacement strings free of `$` patterns — all replacement values reaching
it in this development are `$`-free. -/
def replaceFirstAux (needle repl : List Char) : List Char → List Char
  | [] => []
  | c :: cs =>
    if needle.isPrefixOf (c :: cs) then repl ++ (c :: cs).drop needle.length
    else c :: replaceFirstAux needle repl cs

/-- String-level wrapper for replaceFirstAux. -/
def replaceFirst (s needle repl : String) : String :=
  String.mk (replaceFirstAux needle.data repl.data s.data)

/-- Fuel-driven global scan for the regex `/:\w+[*+]?/g`: all leftmost,
greedy, non-overlapping token matches.  The fuel only needs to dominate
the string length; every step consumes at least one character. -/
def findTokensF : Nat → List Char → List String
  | 0, _ => []
  | _, [] => []
  | fuel + 1, c0 :: rest =>
    if c0 = ':' then
      match rest with
      | c :: _ =>
        if isWordChar c then
          let run := rest.takeWhile isWordChar
          let rest2 := rest.dropWhile isWordChar
          match rest2 with
          | m :: rest3 =>
            if m = '*' || m = '+' then
              String.mk (':' :: run ++ [m]) :: findTokensF fuel rest3
            else
              String.mk (':' :: run) :: findTokensF fuel rest2
          | [] => [String.mk (':' :: run)]
        else findTokensF fuel rest
      | [] => []
    else findTokensF fuel rest

/-- All matches of `/:\w+[*+]?/g` in a string (`result.match(...)`). -/
def findTokens (s : List Char) : List String :=
  findTokensF (s.length + 1) s

/-- One iteration of generatePath's parameter loop
(src/pathe/core/lib/static.ts): empty-array check, then the three
modifier-ordered single replacements. -/
def paramStep (result : String) (name : String) (v : ParamValue)
    (throwOnMissing : Bool) : Except String String :=
  match v with
  | .arr [] =>
    if throwOnMissing then .error ("Empty array for catch-all parameter: " ++ name)
    else .ok result
  | _ =>
    let stringValue := match v with
      | .arr l => String.intercalate "/" l
      | .str s => s
    let r1 := replaceFirst result (":" ++ name ++ "*") stringValue
    let r2 := replaceFirst r1 (":" ++ name ++ "+") stringValue
    let r3 := replaceFirst r2 (":" ++ name) stringValue
    .ok r3

/-- generatePath's loop over `Object.entries(params)`. -/
def genLoop (result : String) (entries : List (String × ParamValue))
    (throwOnMissing : Bool) : Except String String :=
  match entries with
  | [] => .ok result
  | (name, v) :: rest =>
    match paramStep result name v throwOnMissing with
    | .error e => .error e
    | .ok r => genLoop r rest throwOnMissing

/-- generatePath from src/pathe/core/lib/static.ts: modifier-ordered token
substitution per parameter, then the residual-token check; strict mode
(`throwOnMissing = true`, the source default) throws, lenient mode returns
the partially substituted string. -/
def generatePath (pattern : String) (params : List (String × ParamValue))
    (throwOnMissing : Bool) : Except String String :=
  match genLoop pattern params throwOnMissing with
  | .error e => .error e
  | .ok result =>
    let missingParams := findTokens result.data
    if missingParams.length > 0 && throwOnMissing then
      .error ("Missing required parameters: " ++ String.intercalate ", " missingParams)
    else .ok result

/-- C5: generatePath on `/blog/:slug` with no parameters throws in strict
mode with a message naming `:slug`, returns the pattern unchanged in
lenient mode; and for every pattern and parameter name, an empty-array
value throws in strict mode and is skipped in lenient mode, leaving the
pattern unchanged (its token left in place). -/
theorem c5_generatePath_missing_and_empty :
    generatePath "/blog/:slug" [] true =
      .error "Missing required parameters: :slug" ∧
    generatePath "/blog/:slug" [] false = .ok "/blog/:slug" ∧
    (∀ pattern name : String,
      generatePath pattern [(name, .arr [])] true =
        .error ("Empty array for catch-all parameter: " ++ name) ∧
      generatePath pattern [(name, .arr [])] false = .ok pattern) := by
  refine ⟨by rfl, by rfl, fun pattern name => ⟨?_, ?_⟩⟩
  · simp [generatePath, genLoop, paramStep]
  · simp [generatePath, genLoop, paramStep]

/-- Modifier of a pattern capture token: `*`, `+`, or none. -/
inductive TokMod where
  | star
  | plus
  | plain
deriving DecidableEq

/-- Piece of a pattern after the compile-time split on
`/(\/?:\w+[*+]?)/g`: an unmatched literal chunk, or a captured token with
its optional leading slash, name and modifier. -/
inductive Part where
  | lit (chars : List Char)
  | tok (slash : Bool) (name : List Char) (md : TokMod)
deriving DecidableEq

/-- Item of the compiled matching expression built by compile
(src/pathe/core/lib/matcher.ts): an escaped literal (matched verbatim) or
one of the six capture forms.  `cap true .plain` denotes `/([^/]+)`,
`cap true .plus` denotes `/(.+)`, `cap true .star` denotes `(?:/(.*))?`,
and the slash-less forms drop wrap and leading slash. -/
inductive RItem where
  | lit (chars : List Char)
  | cap (slash : Bool) (md : TokMod)
deriving DecidableEq

/-- Completion of a token whose name starts at `s`: greedy `\w+` run, then
an optional `*` or `+`. -/
def mkTok (slash : Bool) (s : List Char) : Part × List Char :=
  let run := s.takeWhile isWordChar
  match s.dropWhile isWordChar with
  | m :: rest2 =>
    if m = '*' then (.tok slash run .star, rest2)
    else if m = '+' then (.tok slash run .plus, rest2)
    else (.tok slash run .plain, m :: rest2)
  | [] => (.tok slash run .plain, [])

/-- Token-at-position test for the split regex `\/?:\w+[*+]?`: a match
starts here iff an optional slash, a colon and at least one word character
line up; `\/?` is greedy, and if taking the slash fails the slash-less
alternative needs a colon first, so the case split below is exhaustive. -/
def tokAt : List Char → Option (Part × List Char)
  | [] => none
  | c1 :: rest1 =>
    if c1 = '/' then
      match rest1 with
      | [] => none
      | c2 :: rest2 =>
        if c2 = ':' then
          match rest2 with
          | [] => none
          | c3 :: _ => if isWordChar c3 then some (mkTok true rest2) else none
        else none
    else if c1 = ':' then
      match rest1 with
      | [] => none
      | c2 :: _ => if isWordChar c2 then some (mkTok false rest1) else none
    else none

/-- Fuel-driven leftmost scan implementing
`pattern.split(/(\/?:\w+[*+]?)/g)`: literal chunks (possibly empty)
alternate with captured tokens.  Each step consumes at least one
character, so fuel above the length never runs out. -/
def splitGoF : Nat → List Char → List Char → List Part
  | 0, acc, _ => [Part.lit acc.reverse]
  | fuel + 1, acc, s =>
    match tokAt s with
    | some (tk, rest) => Part.lit acc.reverse :: tk :: splitGoF fuel [] rest
    | none =>
      match s with
      | [] => [Part.lit acc.reverse]
      | c :: cs => splitGoF fuel (c :: acc) cs

/-- Split of a pattern into parts. -/
def splitTokens (s : List Char) : List Part :=
  splitGoF (s.length + 1) [] s

/-- compile's fold over the split parts: a token part re-matches
`^(\/?):(\w+)([*+]?)$` and contributes a capture item plus its name; a
non-empty literal part contributes an escaped literal; empty parts are
skipped.  (A literal chunk can never itself match the token regex: a
colon followed by a word character inside it would have started a token
during the split.) -/
def compileParts : List Part → List RItem × List String
  | [] => ([], [])
  | p :: rest =>
    let done := compileParts rest
    match p with
    | .tok slash nm md => (RItem.cap slash md :: done.1, String.mk nm :: done.2)
    | .lit [] => done
    | .lit l => (RItem.lit l :: done.1, done.2)

/-- compile from src/pathe/core/lib/matcher.ts: pattern text to matching
expression and ordered capture names.  The source memoizes this per
pattern text in an unbounded cache; memoization is semantically the
identity and is not modelled. -/
def compile (pattern : String) : List RItem × List String :=
  compileParts (splitTokens pattern.data)

/-- Descending candidate list for a greedy capture: capture lengths
`hi, hi-1, ..., lo` over `s`, in backtracking order. -/
def descList (s : List Char) (hi lo : Nat) : List (Option (List Char) × List Char) :=
  ((List.range (hi + 1 - lo)).map (fun i => hi - i)).map
    (fun k => (some (s.take k), s.drop k))

/-- JavaScript line terminators: the characters the regex `.` does not
match without the `s` flag (LF, CR, U+2028 LINE SEPARATOR, U+2029
PARAGRAPH SEPARATOR). -/
def isLineTerm (c : Char) : Bool :=
  c = '\n' || c = '\r' || c = '\u2028' || c = '\u2029'

/-- Candidate (capture, remainder) pairs for one capture item against a
string, in the order a backtracking regex engine tries them:
`([^/]+)` takes non-slash runs longest first (at least one — a negated
class does match line terminators); `(.+)` and `(.*)` take runs of
dot-matching characters longest first, where JavaScript's `.` without the
`s` flag excludes the line terminators, so such a capture can never cross
one; `(?:/(.*))?` tries the slash branch longest first and then the skip
branch with an unset capture, and the slash-less forms drop wrap and
leading slash. -/
def capCandidates (slash : Bool) (md : TokMod) (s : List Char) :
    List (Option (List Char) × List Char) :=
  if slash then
    match s with
    | c :: s2 =>
      if c = '/' then
        match md with
        | .plain => descList s2 (s2.takeWhile (fun x => x ≠ '/')).length 1
        | .plus => descList s2 (s2.takeWhile (fun x => !isLineTerm x)).length 1
        | .star => descList s2 (s2.takeWhile (fun x => !isLineTerm x)).length 0 ++
            [(none, '/' :: s2)]
      else
        match md with
        | .star => [(none, c :: s2)]
        | _ => []
    | [] =>
      match md with
      | .star => [(none, s)]
      | _ => []
  else
    match md with
    | .plain => descList s (s.takeWhile (fun x => x ≠ '/')).length 1
    | .plus => descList s (s.takeWhile (fun x => !isLineTerm x)).length 1
    | .star => descList s (s.takeWhile (fun x => !isLineTerm x)).length 0

/-- Fuel-driven backtracking matcher for the compiled expression anchored
at both ends (`^expr$`): literals are consumed verbatim, captures try
their candidates in order and the first full-match wins — exactly the
leftmost-greedy backtracking order of the JavaScript engine on this
fragment.  Fuel above the item count never runs out. -/
def mItems : Nat → List RItem → List Char → Option (List (Option (List Char)))
  | 0, _, _ => none
  | _ + 1, [], s => if s.isEmpty then some [] else none
  | fuel + 1, .lit l :: rest, s =>
    if l.isPrefixOf s then mItems fuel rest (s.drop l.length) else none
  | fuel + 1, .cap slash md :: rest, s =>
    (capCandidates slash md s).findSome?
      (fun p => (mItems fuel rest p.2).map (fun caps => p.1 :: caps))

/-- Anchored match of a compiled expression against a path. -/
def regexMatch (items : List RItem) (s : List Char) :
    Option (List (Option (List Char))) :=
  mItems (items.length + 1) items s

/-- Assignment `params[key] = value` on a JavaScript object modelled as an
insertion-ordered association list: an existing key is updated in place,
a new key is appended. -/
def paramsAssign (m : List (String × ParamValue)) (k : String) (v : ParamValue) :
    List (String × ParamValue) :=
  if m.any (fun p => p.1 = k) then
    m.map (fun p => if p.1 = k then (k, v) else p)
  else m ++ [(k, v)]

/-- Split on `/` keeping empty pieces (`String.prototype.split('/')`). -/
def splitOnSlash (s : List Char) : List (List Char) :=
  s.foldr
    (fun c acc =>
      match acc with
      | piece :: more => if c = '/' then [] :: piece :: more else (c :: piece) :: more
      | [] => [])
    [[]]

/-- The matcher's `value.split('/').filter(Boolean)`. -/
def splitSlashFilter (s : String) : List String :=
  ((splitOnSlash s.data).filter (fun p => !p.isEmpty)).map String.mk

/-- The matcher's params loop: a captured value containing `/` becomes an
array (split on `/`, empty pieces dropped), a slash-free captured value
stays a scalar, and an unset capture is skipped. -/
def buildParamsGo (acc : List (String × ParamValue)) :
    List String → List (Option (List Char)) → List (String × ParamValue)
  | [], _ => acc
  | _ :: _, [] => acc
  | key :: names, cap :: caps =>
    match cap with
    | some v =>
      if v.contains '/' then
        buildParamsGo (paramsAssign acc key (.arr (splitSlashFilter (String.mk v)))) names caps
      else
        buildParamsGo (paramsAssign acc key (.str (String.mk v))) names caps
    | none => buildParamsGo acc names caps

/-- createMatcher.match from src/pathe/core/lib/matcher.ts (renamed: the
source method name is a Lean keyword): compile the route pattern, match
the path, and build the params object from the ordered captures; a miss is
`none`, not an error. -/
def matchRoute (path : String) (route : Route) : Option RouteMatch :=
  match regexMatch (compile route.pattern).1 path.data with
  | none => none
  | some caps => some ⟨route, buildParamsGo [] (compile route.pattern).2 caps⟩

/-- Membership after a params assignment: an element of the updated object
either was already present or is the new binding. -/
theorem paramsAssign_mem (m : List (String × ParamValue)) (k : String)
    (v : ParamValue) (kv : String × ParamValue) :
    kv ∈ paramsAssign m k v → kv ∈ m ∨ kv = (k, v) := by
  unfold paramsAssign
  split
  · intro h
    rcases List.mem_map.mp h with ⟨p, hp, he⟩
    by_cases hk : p.1 = k
    · rw [if_pos hk] at he
      exact Or.inr he.symm
    · rw [if_neg hk] at he
      exact Or.inl (he ▸ hp)
  · intro h
    rcases List.mem_append.mp h with h | h
    · exact Or.inl h
    · exact Or.inr (by simpa using h)

/-- Shape invariant of matcher params values: every array value is the
slash-split of a captured text containing a slash, and every scalar value
is slash-free. -/
def goodParam (v : ParamValue) : Prop :=
  (∀ xs, v = .arr xs →
    ∃ c : List Char, c.contains '/' = true ∧ xs = splitSlashFilter (String.mk c)) ∧
  (∀ s, v = .str s → s.data.contains '/' = false)

/-- Every value the matcher's params loop stores satisfies goodParam. -/
theorem buildParamsGo_good (names : List String) :
    ∀ (caps : List (Option (List Char))) (acc : List (String × ParamValue)),
      (∀ kv ∈ acc, goodParam kv.2) →
      ∀ kv ∈ buildParamsGo acc names caps, goodParam kv.2 := by
  induction names with
  | nil =>
    intro caps acc hacc kv hkv
    exact hacc kv (by simpa [buildParamsGo] using hkv)
  | cons key names ih =>
    intro caps acc hacc kv hkv
    cases caps with
    | nil => exact hacc kv (by simpa [buildParamsGo] using hkv)
    | cons cap caps2 =>
      cases cap with
      | none => exact ih caps2 acc hacc kv (by simpa [buildParamsGo] using hkv)
      | some v =>
        by_cases hv : '/' ∈ v
        · refine ih caps2 _ ?_ kv (by simpa [buildParamsGo, hv] using hkv)
          intro kv2 hkv2
          rcases paramsAssign_mem _ _ _ _ hkv2 with h | h
          · exact hacc kv2 h
          · rw [h]
            refine ⟨fun xs hxs => ⟨v, by simpa using hv, ?_⟩, fun s hs => by simp at hs⟩
            injection hxs with he
            exact he.symm
        · refine ih caps2 _ ?_ kv (by simpa [buildParamsGo, hv] using hkv)
          intro kv2 hkv2
          rcases paramsAssign_mem _ _ _ _ hkv2 with h | h
          · exact hacc kv2 h
          · rw [h]
            refine ⟨fun xs hxs => by simp at hxs, fun s hs => ?_⟩
            injection hs with he
            rw [← he]
            simpa using hv

/-- Route for the `/shop/:path+` examples. -/
def shopRoute : Route :=
  ⟨[⟨"shop", .static, none, none⟩, ⟨"[...path]", .catchAll, some "path", none⟩],
   "/shop/:path+"⟩

/-- C10: a parameter value is returned as an array only when its captured
text contains a slash, and a scalar value is always slash-free; in
particular a catch-all capturing exactly one path segment comes back as
the scalar string, not a one-element array. -/
theorem c10_array_iff_captured_slash :
    (matchRoute "/shop/a" shopRoute =
      some ⟨shopRoute, [("path", .str "a")]⟩) ∧
    (∀ (path : String) (route : Route) (m : RouteMatch) (k : String)
        (xs : List String),
      matchRoute path route = some m → (k, ParamValue.arr xs) ∈ m.params →
      ∃ c : List Char, c.contains '/' = true ∧
        xs = splitSlashFilter (String.mk c)) ∧
    (∀ (path : String) (route : Route) (m : RouteMatch) (k : String)
        (s : String),
      matchRoute path route = some m → (k, ParamValue.str s) ∈ m.params →
      s.data.contains '/' = false) := by
  refine ⟨by rfl, ?_, ?_⟩
  · intro path route m k xs h1 h2
    unfold matchRoute at h1
    rcases hm : regexMatch (compile route.pattern).1 path.data with _ | caps
    · rw [hm] at h1; cases h1
    · rw [hm] at h1
      injection h1 with he
      have hmem : (k, ParamValue.arr xs) ∈ buildParamsGo [] (compile route.pattern).2 caps := by
        rw [← he] at h2; exact h2
      have hg := buildParamsGo_good (compile route.pattern).2 caps []
        (by intro kv hkv; cases hkv) _ hmem
      exact hg.1 xs rfl
  · intro path route m k s h1 h2
    unfold matchRoute at h1
    rcases hm : regexMatch (compile route.pattern).1 path.data with _ | caps
    · rw [hm] at h1; cases h1
    · rw [hm] at h1
      injection h1 with he
      have hmem : (k, ParamValue.str s) ∈ buildParamsGo [] (compile route.pattern).2 caps := by
        rw [← he] at h2; exact h2
      have hg := buildParamsGo_good (compile route.pattern).2 caps []
        (by intro kv hkv; cases hkv) _ hmem
      exact hg.2 s rfl

/-- Witness for C10: the array clause at the match of `/shop/a/b` and the
scalar clause at the match of `/shop/a`, both against `/shop/:path+`. -/
theorem c10_array_iff_captured_slash_witness :
    (∃ c : List Char, c.contains '/' = true ∧
      ["a", "b"] = splitSlashFilter (String.mk c)) ∧
    ("a".data.contains '/' = false) :=
  ⟨c10_array_iff_captured_slash.2.1 "/shop/a/b" shopRoute
      ⟨shopRoute, [("path", .arr ["a", "b"])]⟩ "path" ["a", "b"]
      (by rfl) (by simp [RouteMatch.params]),
   c10_array_iff_captured_slash.2.2 "/shop/a" shopRoute
      ⟨shopRoute, [("path", .str "a")]⟩ "path" "a"
      (by rfl) (by simp [RouteMatch.params])⟩

mutual

/-- JavaScript runtime value reachable in the serializer's data flow:
the JSON value kinds plus `inf` for the number `Infinity`, which JSON text
cannot represent (`JSON.stringify` writes it as `null`). -/
inductive Js where
  | null
  | jsBool (b : Bool)
  | num (n : Int)
  | str (s : String)
  | arr (elems : JsArr)
  | obj (fields : JsObj)
  | inf
deriving DecidableEq

/-- Array of JavaScript values. -/
inductive JsArr where
  | nil
  | cons (head : Js) (tail : JsArr)
deriving DecidableEq

/-- Object of JavaScript values: insertion-ordered fields. -/
inductive JsObj where
  | nil
  | cons (key : String) (val : Js) (tail : JsObj)
deriving DecidableEq

end

/-- Object builder from a plain association list. -/
def objOfList : List (String × Js) → JsObj
  | [] => .nil
  | (k, v) :: t => .cons k v (objOfList t)

/-- Indentation produced by `JSON.stringify(_, null, 2)` at depth d. -/
def indentStr (d : Nat) : String :=
  String.mk (List.replicate (2 * d) ' ')

/-- JSON string escaping for the characters the serializer can emit. -/
def quoteChar (c : Char) : List Char :=
  if c = '"' then ['\\', '"'] else if c = '\\' then ['\\', '\\'] else [c]

/-- JSON quotation of a string. -/
def quoteStr (s : String) : String :=
  String.mk ('"' :: s.data.foldr (fun c acc => quoteChar c ++ acc) ['"'])

mutual

/-- Pretty text of a value as `JSON.stringify(value, null, 2)` lays it
out at nesting depth d: `Infinity` (like any non-JSON number) prints as
`null`. -/
def jsText : Js → Nat → String
  | .null, _ => "null"
  | .inf, _ => "null"
  | .jsBool true, _ => "true"
  | .jsBool false, _ => "false"
  | .num n, _ => toString n
  | .str s, _ => quoteStr s
  | .arr .nil, _ => "[]"
  | .arr (.cons h t), d =>
    "[\n" ++ jsArrText (.cons h t) (d + 1) ++ "\n" ++ indentStr d ++ "]"
  | .obj .nil, _ => "\x7b\x7d"
  | .obj (.cons k v t), d =>
    "\x7b\n" ++ jsObjText (.cons k v t) (d + 1) ++ "\n" ++ indentStr d ++ "\x7d"

/-- Lines of a non-empty stringified array. -/
def jsArrText : JsArr → Nat → String
  | .nil, _ => ""
  | .cons h .nil, d => indentStr d ++ jsText h d
  | .cons h t, d => indentStr d ++ jsText h d ++ ",\n" ++ jsArrText t d

/-- Lines of a non-empty stringified object. -/
def jsObjText : JsObj → Nat → String
  | .nil, _ => ""
  | .cons k v .nil, d => indentStr d ++ quoteStr k ++ ": " ++ jsText v d
  | .cons k v t, d =>
    indentStr d ++ quoteStr k ++ ": " ++ jsText v d ++ ",\n" ++ jsObjText t d

end

/-- Text of a SegmentType (its union-literal spelling). -/
def typeText : SegmentType → String
  | .static => "static"
  | .dynamic => "dynamic"
  | .catchAll => "catchAll"
  | .optionalCatchAll => "optionalCatchAll"
  | .group => "group"
  | .parallel => "parallel"
  | .interceptSame => "interceptSame"
  | .interceptParent => "interceptParent"
  | .interceptRoot => "interceptRoot"

/-- Runtime value of a level number. -/
def levelToJs : Level → Js
  | .fin n => .num n
  | .inf => .inf

/-- Runtime value of a Segment: absent optional fields are absent
properties. -/
def segToJs (seg : Segment) : Js :=
  .obj (objOfList
    ([("raw", .str seg.raw), ("type", .str (typeText seg.type))]
      ++ (match seg.name with
          | some n => [("name", Js.str n)]
          | none => [])
      ++ (match seg.level with
          | some l => [("level", levelToJs l)]
          | none => [])))

mutual

/-- Runtime value of a RouteNode: fields in declaration order, an empty
(i.e. absent) slots / intercepts list and an absent middleware contributing
no property. -/
def nodeToJs : RouteNode → Js
  | .mk seg comps children slots intercepts mw =>
    .obj (objOfList
      ([("segment", segToJs seg),
        ("components", Js.obj (objOfList (comps.map (fun p => (p.1, Js.str p.2))))),
        ("children", Js.arr (childrenToJs children))]
        ++ (match slots with
            | .nil => []
            | s => [("slots", Js.obj (slotsToJs s))])
        ++ (match intercepts with
            | .nil => []
            | l => [("intercepts", Js.arr (childrenToJs l))])
        ++ (match mw with
            | some m => [("middleware", Js.str m)]
            | none => [])))

/-- Runtime values of a node list. -/
def childrenToJs : NodeList → JsArr
  | .nil => .nil
  | .cons h t => .cons (nodeToJs h) (childrenToJs t)

/-- Runtime values of a slot map. -/
def slotsToJs : SlotList → JsObj
  | .nil => .nil
  | .cons k v t => .cons k (nodeToJs v) (slotsToJs t)

end

/-- Runtime value of a RouteTree. -/
def treeToJs (t : RouteTree) : Js :=
  .obj (objOfList [("root", nodeToJs t.root)])

/-- serialize from src/routing/core/kernel/serializer.ts:
`JSON.stringify(tree, null, 2)`. -/
def serialize (t : RouteTree) : String :=
  jsText (treeToJs t) 0

/-- JSON whitespace skip. -/
def skipWs : List Char → List Char :=
  List.dropWhile (fun c => c = ' ' || c = '\n' || c = '\t' || c = '\r')

/-- JSON string body parser (after the opening quote), fuel-driven; the
escapes the serializer can produce plus the common singles; an unknown
escape fails like `JSON.parse` does. -/
def parseStrF : Nat → List Char → List Char → Option (String × List Char)
  | 0, _, _ => none
  | _ + 1, _, [] => none
  | fuel + 1, acc, c :: rest =>
    if c = '"' then some (String.mk acc.reverse, rest)
    else if c = '\\' then
      match rest with
      | e :: rest2 =>
        if e = '"' then parseStrF fuel ('"' :: acc) rest2
        else if e = '\\' then parseStrF fuel ('\\' :: acc) rest2
        else if e = '/' then parseStrF fuel ('/' :: acc) rest2
        else if e = 'n' then parseStrF fuel ('\n' :: acc) rest2
        else if e = 't' then parseStrF fuel ('\t' :: acc) rest2
        else if e = 'r' then parseStrF fuel ('\r' :: acc) rest2
        else none
      | [] => none
    else parseStrF fuel (c :: acc) rest

/-- Digit-run accumulator for JSON integers. -/
def parseDigits (acc : Nat) : List Char → Nat × List Char
  | c :: rest =>
    if c.isDigit then parseDigits (acc * 10 + (c.toNat - 48)) rest
    else (acc, c :: rest)
  | [] => (acc, [])

/-- JSON number parser (integer fragment: the serializer only emits
integer levels). -/
def parseNum (c : Char) (rest : List Char) : Option (Js × List Char) :=
  if c = '-' then
    match rest with
    | d :: rest2 =>
      if d.isDigit then
        let p := parseDigits (d.toNat - 48) rest2
        some (.num (-(p.1 : Int)), p.2)
      else none
    | [] => none
  else if c.isDigit then
    let p := parseDigits (c.toNat - 48) rest
    some (.num p.1, p.2)
  else none

mutual

/-- Recursive-descent JSON value parser modelling `JSON.parse`,
fuel-driven (fuel at twice the input length never runs out). -/
def parseVal : Nat → List Char → Option (Js × List Char)
  | 0, _ => none
  | fuel + 1, s =>
    match skipWs s with
    | [] => none
    | c :: rest =>
      if c = '{' then
        match skipWs rest with
        | '}' :: rest2 => some (.obj .nil, rest2)
        | rest2 => (parseFields fuel rest2).map (fun p => (Js.obj p.1, p.2))
      else if c = '[' then
        match skipWs rest with
        | ']' :: rest2 => some (.arr .nil, rest2)
        | rest2 => (parseItems fuel rest2).map (fun p => (Js.arr p.1, p.2))
      else if c = '"' then
        (parseStrF (rest.length + 1) [] rest).map (fun p => (Js.str p.1, p.2))
      else if c = 't' then
        match rest with
        | 'r' :: 'u' :: 'e' :: rest2 => some (.jsBool true, rest2)
        | _ => none
      else if c = 'f' then
        match rest with
        | 'a' :: 'l' :: 's' :: 'e' :: rest2 => some (.jsBool false, rest2)
        | _ => none
      else if c = 'n' then
        match rest with
        | 'u' :: 'l' :: 'l' :: rest2 => some (.null, rest2)
        | _ => none
      else parseNum c rest

/-- Object fields after at least one is known to follow; consumes the
closing brace. -/
def parseFields : Nat → List Char → Option (JsObj × List Char)
  | 0, _ => none
  | fuel + 1, s =>
    match skipWs s with
    | '"' :: rest =>
      match parseStrF (rest.length + 1) [] rest with
      | some (k, rest2) =>
        match skipWs rest2 with
        | ':' :: rest3 =>
          match parseVal fuel rest3 with
          | some (v, rest4) =>
            match skipWs rest4 with
            | ',' :: rest5 =>
              (parseFields fuel rest5).map (fun p => (JsObj.cons k v p.1, p.2))
            | '}' :: rest5 => some (.cons k v .nil, rest5)
            | _ => none
          | none => none
        | _ => none
      | none => none
    | _ => none

/-- Array items after at least one is known to follow; consumes the
closing bracket. -/
def parseItems : Nat → List Char → Option (JsArr × List Char)
  | 0, _ => none
  | fuel + 1, s =>
    match parseVal fuel s with
    | some (v, rest) =>
      match skipWs rest with
      | ',' :: rest2 => (parseItems fuel rest2).map (fun p => (JsArr.cons v p.1, p.2))
      | ']' :: rest2 => some (.cons v .nil, rest2)
      | _ => none
    | none => none

end

/-- `JSON.parse`: a value followed only by whitespace; `none` models the
SyntaxError throw. -/
def jsonParse (s : String) : Option Js :=
  match parseVal (2 * s.data.length + 2) s.data with
  | some (v, rest) => if (skipWs rest).isEmpty then some v else none
  | none => none

/-- Key membership in an object. -/
def jsObjHasKey : JsObj → String → Bool
  | .nil, _ => false
  | .cons k2 _ t, k => k2 = k || jsObjHasKey t k

/-- First binding of a key in an object. -/
def jsObjGet : JsObj → String → Option Js
  | .nil, _ => none
  | .cons k2 v t, k => if k2 = k then some v else jsObjGet t k

/-- Property presence (`key in value`) for the shape checks: only plain
objects can hold the checked names (an array's own keys are indices, and
primitives fail the `typeof` test first). -/
def jsHas : Js → String → Bool
  | .obj fields, k => jsObjHasKey fields k
  | _, _ => false

/-- Field access for the shape checks (serializer output and the claims'
inputs bind each key once). -/
def jsGet : Js → String → Option Js
  | .obj fields, k => jsObjGet fields k
  | _, _ => none

/-- isRouteNode from src/routing/core/kernel/serializer.ts: a non-null
object value with `segment`, `components` and `children` keys whose
`children` is an array; nested children are not inspected. -/
def isRouteNodeJs (v : Js) : Bool :=
  jsHas v "segment" && jsHas v "components" && jsHas v "children" &&
    (match jsGet v "children" with
     | some (.arr _) => true
     | _ => false)

/-- isRouteTree from src/routing/core/kernel/serializer.ts. -/
def isRouteTreeJs (v : Js) : Bool :=
  jsHas v "root" &&
    (match jsGet v "root" with
     | some r => isRouteNodeJs r
     | none => false)

/-- deserialize from src/routing/core/kernel/serializer.ts: parse the
text, check the shallow shape, and return the parsed value itself (the
source casts it, converting nothing). -/
def deserialize (json : String) : Except String Js :=
  match jsonParse json with
  | none => .error "SyntaxError: JSON.parse failed"
  | some v =>
    if isRouteTreeJs v then .ok v else .error "Invalid RouteTree structure"

/-- Head of an array value. -/
def jsArrFirst : Js → Option Js
  | .arr (.cons h _) => some h
  | _ => none

/-- Path into the level of the first root intercept of a (de)serialized
tree value. -/
def firstInterceptLevel (v : Js) : Option Js :=
  ((((jsGet v "root").bind (fun r => jsGet r "intercepts")).bind
    jsArrFirst).bind (fun n => jsGet n "segment")).bind (fun s => jsGet s "level")

/-- Valid tree whose root carries one interceptRoot intercept, whose
segment level is the number Infinity (the parser's value for `(...)name`). -/
def infLevelTree : RouteTree :=
  ⟨.mk ⟨"", .static, none, none⟩ [] .nil .nil
    (.cons (.mk ⟨"(...)photo", .interceptRoot, some "photo", some .inf⟩
      [("page", "/p.tsx")] .nil .nil .nil none) .nil)
    none⟩

set_option maxRecDepth 40000 in
/-- C2 (code bug evaluation): on a valid tree holding an interceptRoot
segment with level Infinity, deserialize after serialize succeeds but the
result is not deep-equal to the original runtime value: `JSON.stringify`
writes Infinity as `null`, so the decoded level is null where the original
was Infinity. -/
theorem c2_infinity_level_breaks_round_trip :
    ∃ v, deserialize (serialize infLevelTree) = .ok v ∧
      v ≠ treeToJs infLevelTree ∧
      firstInterceptLevel v = some Js.null ∧
      firstInterceptLevel (treeToJs infLevelTree) = some Js.inf :=
  ⟨_, by rfl, by decide, by rfl, by rfl⟩

/-- Finite tree exercising every optional field, used to show the round
trip does hold away from Infinity levels. -/
def finiteTree : RouteTree :=
  ⟨.mk ⟨"", .static, none, none⟩ [("layout", "/layout.tsx")]
    (.cons (.mk ⟨"blog", .static, none, none⟩ [("page", "/blog/page.tsx")]
      .nil .nil .nil none) .nil)
    (.cons "modal" (.mk ⟨"@modal", .parallel, some "modal", none⟩
      [("default", "/d.tsx")] .nil .nil .nil none) .nil)
    (.cons (.mk ⟨"(.)photo", .interceptSame, some "photo", some (.fin 0)⟩
      [("page", "/ph.tsx")] .nil .nil .nil none) .nil)
    (some "/mw.ts")⟩

set_option maxRecDepth 80000 in
/-- Companion to C2: with every level finite the round trip does
reproduce the original runtime value, so the Infinity encoding is the
one obstruction on this tree shape. -/
theorem c2_finite_round_trip_holds :
    deserialize (serialize finiteTree) = .ok (treeToJs finiteTree) := by
  rfl

/-- C9: deserialize throws exactly when the text fails to parse or the
decoded value fails the shallow shape check; `'not json'` and an empty
object both throw, while a well-shaped root with malformed nested children
is accepted (nested node shapes are not re-validated). -/
theorem c9_deserialize_throws_iff_shape_fails :
    (∀ s : String,
      (∃ v, deserialize s = .ok v) ↔
        (∃ v, jsonParse s = some v ∧ isRouteTreeJs v = true)) ∧
    deserialize "not json" = .error "SyntaxError: JSON.parse failed" ∧
    deserialize "\x7b\x7d" = .error "Invalid RouteTree structure" ∧
    (∃ v, deserialize
      "\x7b\"root\":\x7b\"segment\":1,\"components\":2,\"children\":[3]\x7d\x7d" =
        .ok v) := by
  refine ⟨fun s => ?_, by rfl, by rfl, ⟨_, by rfl⟩⟩
  unfold deserialize
  rcases h : jsonParse s with _ | v
  · simp
  · by_cases hs : isRouteTreeJs v
    · simp [hs]
    · simp [hs]

/-- Adapt context from src/unnamed/part_027 (Context). -/
structure Ctx where
  node : RouteNode
  segments : List Segment
  pattern : String
  layouts : List String
  middlewares : List String

/-- Result of an adapter's resolve callback; a present value is truthy
and an absent one (undefined) falsy.  (A present-but-falsy value such as
an empty string is not representable: values are abstract here.) -/
structure Resolved (α : Type) where
  layout : Option α
  page : Option α
  meta : Option α

/-- Argument record of an adapter's create callback. -/
structure CreateArgs (ρ α : Type) where
  path : String
  index : Bool
  data : Resolved α
  children : List ρ

/-- Adapter definition from src/unnamed/part_027: the three injected pure
callbacks. -/
structure Adapter (ρ ω α : Type) where
  format : Segment → String
  resolve : RouteNode → ω → Ctx → Resolved α
  create : CreateArgs ρ α → ρ

/-- affects from src/unnamed/part_027: does the segment contribute a URL
token? -/
def affects (seg : Segment) : Bool :=
  seg.type = .static || seg.type = .dynamic ||
    seg.type = .catchAll || seg.type = .optionalCatchAll

/-- isRoot from src/unnamed/part_027: the synthetic root segment (static
with empty raw). -/
def isRootSeg (seg : Segment) : Bool :=
  seg.type = .static && seg.raw = ""

/-- pattern from src/unnamed/part_027: URL pattern of a segment chain
under the adapter's formatter. -/
def patternOfSegs (segs : List Segment) (fmt : Segment → String) : String :=
  "/" ++ String.intercalate "/" ((segs.filter (fun s => affects s)).map fmt)

/-- context from src/unnamed/part_027. -/
def mkCtx (node : RouteNode) (segs : List Segment) (layouts middlewares : List String)
    (fmt : Segment → String) : Ctx :=
  ⟨node, segs, patternOfSegs segs fmt, layouts, middlewares⟩

/-- Layout stack extension: `layout ? [...layouts, layout] : layouts`
(an empty-string path is falsy). -/
def pushTruthy (stack : List String) : Option String → List String
  | some s => if s.isEmpty then stack else stack ++ [s]
  | none => stack

mutual

/-- walk from src/unnamed/part_027 (define): single post-order depth-first
traversal over children, slots and intercepts flattened into one child
list, carrying the segment chain and the ancestor layout / middleware
stacks. -/
def walk {ρ ω α : Type} (A : Adapter ρ ω α) (options : ω) :
    RouteNode → List Segment → List String → List String → List ρ
  | .mk seg comps children slots intercepts mw, segs, layouts, middlewares =>
    let chain := segs ++ [seg]
    let nextLayouts := pushTruthy layouts (objGet comps "layout")
    let nextMw := pushTruthy middlewares mw
    let kids :=
      walkNodes A options children chain nextLayouts nextMw ++
      walkSlots A options slots chain nextLayouts nextMw ++
      walkNodes A options intercepts chain nextLayouts nextMw
    let dyn := affects seg && !isRootSeg seg
    let slug := if dyn then A.format seg else ""
    let root := isRootSeg seg
    let ctx := mkCtx (.mk seg comps children slots intercepts mw) chain nextLayouts nextMw A.format
    let resolved := A.resolve (.mk seg comps children slots intercepts mw) options ctx
    if !dyn && !root then kids
    else
      let path := if root then "/" else slug
      match resolved.layout with
      | some l =>
        let idx :=
          match resolved.page with
          | some _ => [A.create ⟨"", true, ⟨none, resolved.page, resolved.meta⟩, []⟩]
          | none => []
        [A.create ⟨path, false, ⟨some l, none, resolved.meta⟩, idx ++ kids⟩]
      | none =>
        if resolved.page.isSome || !kids.isEmpty then
          [A.create ⟨path, false, resolved, kids⟩]
        else []

/-- walk over a node list. -/
def walkNodes {ρ ω α : Type} (A : Adapter ρ ω α) (options : ω) :
    NodeList → List Segment → List String → List String → List ρ
  | .nil, _, _, _ => []
  | .cons h t, segs, layouts, middlewares =>
    walk A options h segs layouts middlewares ++
      walkNodes A options t segs layouts middlewares

/-- walk over a slot list (`Object.values(node.slots)`). -/
def walkSlots {ρ ω α : Type} (A : Adapter ρ ω α) (options : ω) :
    SlotList → List Segment → List String → List String → List ρ
  | .nil, _, _, _ => []
  | .cons _ v t, segs, layouts, middlewares =>
    walk A options v segs layouts middlewares ++
      walkSlots A options t segs layouts middlewares

end

/-- adapt, the function define returns: walk from the root with empty
chain and stacks. -/
def adapt {ρ ω α : Type} (A : Adapter ρ ω α) (tree : RouteTree) (options : ω) :
    List ρ :=
  walk A options tree.root [] [] []

/-- Value of the adapter's resolve callback at the tree root, exactly as
walk computes it there. -/
def rootResolved {ρ ω α : Type} (A : Adapter ρ ω α) (options : ω)
    (tree : RouteTree) : Resolved α :=
  match tree.root with
  | .mk seg comps children slots intercepts mw =>
    A.resolve (.mk seg comps children slots intercepts mw) options
      (mkCtx (.mk seg comps children slots intercepts mw) [seg]
        (pushTruthy [] (objGet comps "layout")) (pushTruthy [] mw) A.format)

/-- Routes the root's flattened child list contributes, exactly as walk
computes them. -/
def rootKids {ρ ω α : Type} (A : Adapter ρ ω α) (options : ω)
    (tree : RouteTree) : List ρ :=
  match tree.root with
  | .mk seg comps children slots intercepts mw =>
    walkNodes A options children [seg]
        (pushTruthy [] (objGet comps "layout")) (pushTruthy [] mw) ++
      walkSlots A options slots [seg]
        (pushTruthy [] (objGet comps "layout")) (pushTruthy [] mw) ++
      walkNodes A options intercepts [seg]
        (pushTruthy [] (objGet comps "layout")) (pushTruthy [] mw)

/-- Adapter resolving nothing and producing unit routes. -/
def unitAdapter : Adapter Unit Unit Unit :=
  ⟨fun _ => "", fun _ _ _ => ⟨none, none, none⟩, fun _ => ()⟩

/-- Tree with a bare synthetic root: no components, no children. -/
def emptyRootTree : RouteTree :=
  ⟨.mk ⟨"", .static, none, none⟩ [] .nil .nil .nil none⟩

/-- Counterexample to C3: with an adapter that resolves no layout and no
page, the bare synthetic-root tree adapts to the empty route list — zero
top-level routes, not exactly one. -/
theorem c3_counterexample_zero_routes :
    adapt unitAdapter emptyRootTree () = [] ∧
    (adapt unitAdapter emptyRootTree ()).length ≠ 1 := by
  exact ⟨by decide, by decide⟩

/-- C3 as amended: for a tree whose root is the synthetic root segment,
adapt returns at most one top-level route, and returns none exactly when
the root resolves neither layout nor page and no descendant contributes a
route; the root is indeed treated as URL-affecting (it never passes its
children through unwrapped), but a route is only emitted when there is
something to put in it. -/
theorem c3_amended_at_most_one_root_route {ρ ω α : Type} (A : Adapter ρ ω α)
    (options : ω) (tree : RouteTree)
    (h : isRootSeg tree.root.segment = true) :
    (adapt A tree options).length ≤ 1 ∧
    ((adapt A tree options) = [] ↔
      ((rootResolved A options tree).layout = none ∧
       (rootResolved A options tree).page = none ∧
       rootKids A options tree = [])) := by
  rcases tree with ⟨root⟩
  rcases root with ⟨seg, comps, children, slots, intercepts, mw⟩
  simp only [RouteNode.segment] at h
  simp only [adapt, walk, rootResolved, rootKids, List.nil_append, h,
    Bool.not_true, Bool.and_false, Bool.not_false, Bool.and_true, if_false,
    if_true, Bool.false_and]
  set R := A.resolve (.mk seg comps children slots intercepts mw) options
      (mkCtx (.mk seg comps children slots intercepts mw) [seg]
        (pushTruthy [] (objGet comps "layout")) (pushTruthy [] mw)
        A.format) with hR
  set K := walkNodes A options children [seg]
        (pushTruthy [] (objGet comps "layout")) (pushTruthy [] mw) ++
      walkSlots A options slots [seg]
        (pushTruthy [] (objGet comps "layout")) (pushTruthy [] mw) ++
      walkNodes A options intercepts [seg]
        (pushTruthy [] (objGet comps "layout")) (pushTruthy [] mw) with hK
  rcases hres : R.layout with _ | l
  · rcases hpage : R.page with _ | p
    · cases he : K.isEmpty
      · have hne : ¬ K = [] := by
          intro hh
          rw [hh] at he
          simp at he
        simp [hres, hpage, he, hne]
      · have hke : K = [] := List.isEmpty_iff.mp he
        simp [hres, hpage, he, hke]
    · simp [hres, hpage]
  · simp [hres]

/-- Witness for C3's amended theorem at the unit adapter and the bare
synthetic-root tree. -/
theorem c3_amended_at_most_one_root_route_witness :
    (adapt unitAdapter emptyRootTree ()).length ≤ 1 ∧
    ((adapt unitAdapter emptyRootTree ()) = [] ↔
      ((rootResolved unitAdapter () emptyRootTree).layout = none ∧
       (rootResolved unitAdapter () emptyRootTree).page = none ∧
       rootKids unitAdapter () emptyRootTree = [])) :=
  c3_amended_at_most_one_root_route unitAdapter () emptyRootTree (by decide)

/-- Occurrence test: does some suffix of s start with needle? -/
def occursB (needle : List Char) : List Char → Bool
  | [] => false
  | c :: cs => needle.isPrefixOf (c :: cs) || occursB needle cs

/-- replaceFirst is the identity when the needle never occurs. -/
theorem replaceFirstAux_of_not_occurs (needle repl : List Char) :
    ∀ s, occursB needle s = false → replaceFirstAux needle repl s = s := by
  intro s
  induction s with
  | nil => intro _; rfl
  | cons c cs ih =>
    intro h
    simp only [occursB, Bool.or_eq_false_iff] at h
    simp [replaceFirstAux, h.1, ih h.2]

/-- Scanning for a colon-headed needle skips colon-free text. -/
theorem occursB_skip (nd : List Char) :
    ∀ A B : List Char, (∀ c ∈ A, c ≠ ':') →
      occursB (':' :: nd) (A ++ B) = occursB (':' :: nd) B := by
  intro A
  induction A with
  | nil => intro B _; rfl
  | cons c cs ih =>
    intro B hA
    have hc : c ≠ ':' := hA c (by simp)
    have hp : (':' :: nd).isPrefixOf (c :: (cs ++ B)) = false := by
      simp [List.isPrefixOf, Ne.symm hc]
    have he : occursB (':' :: nd) ((c :: cs) ++ B) =
        ((':' :: nd).isPrefixOf (c :: (cs ++ B)) || occursB (':' :: nd) (cs ++ B)) := rfl
    rw [he, hp, Bool.false_or]
    exact ih B (fun x hx => hA x (List.mem_cons_of_mem _ hx))

/-- A colon-headed needle does not occur in colon-free text. -/
theorem occursB_colonFree (nd : List Char) (A : List Char)
    (hA : ∀ c ∈ A, c ≠ ':') : occursB (':' :: nd) A = false := by
  have := occursB_skip nd A [] hA
  simpa using this

/-- Prefix test after stripping a common prefix. -/
theorem isPrefixOf_append_cancel (a : List Char) :
    ∀ b c : List Char, (a ++ b).isPrefixOf (a ++ c) = b.isPrefixOf c := by
  induction a with
  | nil => intro b c; rfl
  | cons x xs ih => intro b c; simp [List.isPrefixOf, ih]

/-- Every list is a prefix of itself extended. -/
theorem isPrefixOf_append_self (l B : List Char) : l.isPrefixOf (l ++ B) = true := by
  induction l with
  | nil => cases B <;> rfl
  | cons x xs ih => simp [List.isPrefixOf, ih]

/-- replaceFirst distributes over a colon-free prefix when the needle is
colon-headed. -/
theorem replaceFirstAux_skip (nd repl : List Char) :
    ∀ A B : List Char, (∀ c ∈ A, c ≠ ':') →
      replaceFirstAux (':' :: nd) repl (A ++ B) =
        A ++ replaceFirstAux (':' :: nd) repl B := by
  intro A
  induction A with
  | nil => intro B _; rfl
  | cons c cs ih =>
    intro B hA
    have hc : c ≠ ':' := hA c (by simp)
    have hp : (':' :: nd).isPrefixOf (c :: (cs ++ B)) = false := by
      simp [List.isPrefixOf, Ne.symm hc]
    have he : replaceFirstAux (':' :: nd) repl ((c :: cs) ++ B) =
        (if (':' :: nd).isPrefixOf (c :: (cs ++ B)) = true
         then repl ++ (c :: (cs ++ B)).drop (':' :: nd).length
         else c :: replaceFirstAux (':' :: nd) repl (cs ++ B)) := rfl
    rw [he, hp]
    rw [if_neg (by simp)]
    rw [ih B (fun x hx => hA x (List.mem_cons_of_mem _ hx))]
    rfl

/-- replaceFirst at an occurrence sitting at the front. -/
theorem replaceFirstAux_here (nd repl B : List Char) :
    replaceFirstAux (':' :: nd) repl ((':' :: nd) ++ B) = repl ++ B := by
  have hp : (':' :: nd).isPrefixOf (':' :: (nd ++ B)) = true := by
    rw [show ':' :: (nd ++ B) = (':' :: nd) ++ B from rfl]
    exact isPrefixOf_append_self _ _
  have he : replaceFirstAux (':' :: nd) repl ((':' :: nd) ++ B) =
      (if (':' :: nd).isPrefixOf (':' :: (nd ++ B)) = true
       then repl ++ (':' :: (nd ++ B)).drop (':' :: nd).length
       else ':' :: replaceFirstAux (':' :: nd) repl (nd ++ B)) := rfl
  rw [he, hp, if_pos rfl]
  congr 1
  rw [show ':' :: (nd ++ B) = (':' :: nd) ++ B from rfl]
  exact List.drop_left _ _

/-- A word-named needle closed by a non-word modifier is no prefix of a
differently-named token body followed by non-word text. -/
theorem name_mod_mismatch (md : Char) (hmd : ¬ isWordChar md = true) :
    ∀ n m after : List Char, n.all isWordChar = true → m.all isWordChar = true →
      n ≠ m → (after = [] ∨ ∃ c rest, after = c :: rest ∧ ¬ isWordChar c = true) →
      (n ++ [md]).isPrefixOf (m ++ after) = false := by
  intro n
  induction n with
  | nil =>
    intro m after _ hm hnm hafter
    cases m with
    | nil => exact absurd rfl hnm
    | cons b ms =>
      have hb : isWordChar b = true := by
        simp only [List.all_cons, Bool.and_eq_true] at hm
        exact hm.1
      simp only [List.nil_append, List.cons_append, List.isPrefixOf,
        Bool.and_eq_false_iff]
      left
      simp only [beq_eq_false_iff_ne, ne_eq]
      intro he
      rw [he] at hmd
      exact hmd hb
  | cons a ns ih =>
    intro m after hn hm hnm hafter
    simp only [List.all_cons, Bool.and_eq_true] at hn
    cases m with
    | nil =>
      simp only [List.nil_append]
      rcases hafter with h | ⟨c, rest, he, hc⟩
      · subst h; rfl
      · subst he
        simp only [List.cons_append, List.isPrefixOf, Bool.and_eq_false_iff]
        left
        simp only [beq_eq_false_iff_ne, ne_eq]
        intro hac
        rw [hac] at hn
        exact hc hn.1
    | cons b ms =>
      simp only [List.all_cons, Bool.and_eq_true] at hm
      have he : ((a :: ns) ++ [md]).isPrefixOf ((b :: ms) ++ after) =
          (a == b && (ns ++ [md]).isPrefixOf (ms ++ after)) := rfl
      rw [he]
      by_cases hab : a = b
      · subst hab
        have hne : ns ≠ ms := by
          intro he2
          exact hnm (by rw [he2])
        rw [beq_self_eq_true, Bool.true_and]
        exact ih ms after hn.2 hm.2 hne hafter
      · rw [Bool.and_eq_false_iff]
        left
        simp [hab]

/-- takeWhile over a run followed by a failing head. -/
theorem takeWhile_run (p : Char → Bool) :
    ∀ A B : List Char, A.all p = true → (B = [] ∨ ∃ c rest, B = c :: rest ∧ p c = false) →
      (A ++ B).takeWhile p = A ∧ (A ++ B).dropWhile p = B := by
  intro A
  induction A with
  | nil =>
    intro B _ hB
    rcases hB with h | ⟨c, rest, he, hc⟩
    · subst h; simp
    · subst he
      simp [List.takeWhile, List.dropWhile, hc]
  | cons a as ih =>
    intro B hA hB
    simp only [List.all_cons, Bool.and_eq_true] at hA
    have := ih B hA.2 hB
    simp [List.takeWhile, List.dropWhile, hA.1, this.1, this.2]

/-- Name characters of a segment as the builder renders them. -/
def nameCh (s : Segment) : List Char :=
  (nameText s.name).data

/-- Characters a segment contributes to its built pattern (its builder
token). -/
def tokChars (s : Segment) : List Char :=
  match s.type with
  | .static => s.raw.data
  | .dynamic => ':' :: nameCh s
  | .catchAll => ':' :: nameCh s ++ ['+']
  | .optionalCatchAll => ':' :: nameCh s ++ ['*']
  | _ => []

/-- Pattern characters of a chain: every token preceded by a slash. -/
def patTail : List Segment → List Char
  | [] => []
  | s :: rest => '/' :: tokChars s ++ patTail rest

/-- Path characters generatePath is expected to produce for a chain and a
consistent parameter list in chain order. -/
def renderTail : List Segment → List (String × ParamValue) → List Char
  | [], _ => []
  | s :: rest, ps =>
    match s.type with
    | .static => '/' :: s.raw.data ++ renderTail rest ps
    | .dynamic =>
      match ps with
      | (_, .str v) :: ps2 => '/' :: v.data ++ renderTail rest ps2
      | _ => []
    | .catchAll =>
      match ps with
      | (_, .arr l) :: ps2 =>
        '/' :: (String.intercalate "/" l).data ++ renderTail rest ps2
      | _ => []
    | .optionalCatchAll =>
      match ps with
      | (_, .arr l) :: ps2 =>
        '/' :: (String.intercalate "/" l).data ++ renderTail rest ps2
      | _ => []
    | _ => []

/-- Well-formed parameter value text: non-empty, and free of the slash
(path separator), colon (token opener) and dollar (replacement pattern)
characters as well as of line terminators (which the matcher's `.`
captures cannot cross). -/
def okStr (v : String) : Bool :=
  !v.isEmpty &&
    v.data.all (fun c => c ≠ '/' && c ≠ ':' && c ≠ '$' && !isLineTerm c)

/-- Consistent parameter list for a chain, listed in chain order: dynamic
segments carry well-formed strings, catch-all-family segments carry arrays
of at least two well-formed strings. -/
def consistentB : List Segment → List (String × ParamValue) → Bool
  | [], [] => true
  | [], _ :: _ => false
  | s :: rest, ps =>
    match s.type with
    | .static => consistentB rest ps
    | .dynamic =>
      match ps with
      | (n, .str v) :: ps2 => (s.name == some n) && okStr v && consistentB rest ps2
      | _ => false
    | .catchAll =>
      match ps with
      | (n, .arr l) :: ps2 =>
        (s.name == some n) && decide (2 ≤ l.length) && l.all okStr &&
          consistentB rest ps2
      | _ => false
    | .optionalCatchAll =>
      match ps with
      | (n, .arr l) :: ps2 =>
        (s.name == some n) && decide (2 ≤ l.length) && l.all okStr &&
          consistentB rest ps2
      | _ => false
    | _ => false

/-- Parameter names of a chain in order. -/
def paramNames : List Segment → List String
  | [] => []
  | s :: rest =>
    if s.type = .static then paramNames rest else nameText s.name :: paramNames rest

/-- Membership of a string in a list. -/
def memB (x : String) : List String → Bool
  | [] => false
  | y :: ys => x = y || memB x ys

/-- Duplicate-freeness of a name list. -/
def nodupB : List String → Bool
  | [] => true
  | x :: xs => !memB x xs && nodupB xs

/-- Well-formed static raw text: free of slash and colon. -/
def okRaw (r : String) : Bool :=
  r.data.all (fun c => c ≠ '/' && c ≠ ':')

/-- Well-formed segment name: present, non-empty, word characters only. -/
def okName (s : Segment) : Bool :=
  match s.name with
  | some n => !n.isEmpty && n.data.all isWordChar
  | none => false

/-- Per-segment well-formedness: URL-affecting type with a well-formed raw
(static) or name (parameterized). -/
def segOk (s : Segment) : Bool :=
  match s.type with
  | .static => okRaw s.raw
  | .dynamic => okName s
  | .catchAll => okName s
  | .optionalCatchAll => okName s
  | _ => false

/-- A catch-all-family segment may only stand last. -/
def noCatchBeforeEnd : List Segment → Bool
  | [] => true
  | [_] => true
  | s :: rest => (s.type = .static || s.type = .dynamic) && noCatchBeforeEnd rest

/-- Well-formed chain: per-segment well-formedness, catch-alls only in the
final position, and pairwise distinct parameter names. -/
def wfChain (chain : List Segment) : Bool :=
  chain.all segOk && noCatchBeforeEnd chain && nodupB (paramNames chain)

/-- Data of an accumulated intercalation. -/
theorem intercalate_go_data (s : String) :
    ∀ (as : List String) (acc : String),
      (String.intercalate.go acc s as).data =
        acc.data ++ as.flatMap (fun a => s.data ++ a.data) := by
  intro as
  induction as with
  | nil => intro acc; simp [String.intercalate.go]
  | cons a as ih =>
    intro acc
    rw [show String.intercalate.go acc s (a :: as) =
      String.intercalate.go (acc ++ s ++ a) s as from rfl]
    rw [ih]
    simp [String.data_append]

/-- Data of a slash intercalation. -/
theorem intercalate_slash_data (l : List String) :
    (String.intercalate "/" l).data =
      match l with
      | [] => []
      | a :: as => a.data ++ as.flatMap (fun x => '/' :: x.data) := by
  cases l with
  | nil => rfl
  | cons a as =>
    rw [show String.intercalate "/" (a :: as) = String.intercalate.go a "/" as from rfl]
    rw [intercalate_go_data]
    rfl

/-- Word characters are not separators, token openers or modifiers. -/
theorem wordChar_ne (c : Char) (h : isWordChar c = true) :
    c ≠ ':' ∧ c ≠ '/' ∧ c ≠ '*' ∧ c ≠ '+' := by
  refine ⟨?_, ?_, ?_, ?_⟩ <;> (rintro rfl; exact absurd h (by decide))

/-- Facts packed in okStr. -/
theorem okStr_props (v : String) (h : okStr v = true) :
    v.data ≠ [] ∧
      ∀ c ∈ v.data, c ≠ '/' ∧ c ≠ ':' ∧ c ≠ '$' ∧ isLineTerm c = false := by
  unfold okStr at h
  rw [Bool.and_eq_true] at h
  constructor
  · intro hd
    have : v = "" := by
      cases v
      simp at hd
      rw [hd]
    rw [this] at h
    simp [String.isEmpty] at h
  · intro c hc
    have := List.all_eq_true.mp h.2 c hc
    simp only [Bool.and_eq_true, Bool.not_eq_true', decide_eq_true_eq] at this
    exact ⟨this.1.1.1, this.1.1.2, this.1.2, this.2⟩

/-- Facts packed in okRaw. -/
theorem okRaw_props (r : String) (h : okRaw r = true) :
    ∀ c ∈ r.data, c ≠ '/' ∧ c ≠ ':' := by
  intro c hc
  have := List.all_eq_true.mp h c hc
  simp only [Bool.and_eq_true, decide_eq_true_eq] at this
  exact this

/-- Facts packed in okName. -/
theorem okName_props (s : Segment) (h : okName s = true) :
    ∃ n, s.name = some n ∧ n.data ≠ [] ∧ n.data.all isWordChar = true := by
  unfold okName at h
  rcases hn : s.name with _ | n
  · rw [hn] at h; cases h
  · rw [hn] at h
    rw [Bool.and_eq_true] at h
    refine ⟨n, rfl, ?_, h.2⟩
    intro hd
    have : n = "" := by
      cases n
      simp at hd
      rw [hd]
    rw [this] at h
    simp [String.isEmpty] at h

/-- The pattern tail of a chain is empty or slash-headed. -/
theorem patTail_shape (chain : List Segment) :
    patTail chain = [] ∨ ∃ t, patTail chain = '/' :: t := by
  cases chain with
  | nil => exact Or.inl rfl
  | cons s rest => exact Or.inr ⟨_, rfl⟩

/-- The joined value of a well-formed array is colon-free. -/
theorem join_colonFree (l : List String) (h : l.all okStr = true) :
    ∀ c ∈ (String.intercalate "/" l).data, c ≠ ':' := by
  intro c hc
  rw [intercalate_slash_data] at hc
  cases l with
  | nil => simp at hc
  | cons a as =>
    simp only [List.all_cons, Bool.and_eq_true] at h
    simp only [List.mem_append] at hc
    rcases hc with hc | hc
    · exact ((okStr_props a h.1).2 c hc).2.1
    · rw [List.mem_flatMap] at hc
      rcases hc with ⟨x, hx, hcx⟩
      rw [List.mem_cons] at hcx
      rcases hcx with hcx | hcx
      · rw [hcx]; decide
      · have hxok := List.all_eq_true.mp h.2 x hx
        exact ((okStr_props x hxok).2 c hcx).2.1

/-- The joined value of a well-formed array is free of line terminators. -/
theorem join_noLT (l : List String) (h : l.all okStr = true) :
    ∀ c ∈ (String.intercalate "/" l).data, isLineTerm c = false := by
  intro c hc
  rw [intercalate_slash_data] at hc
  cases l with
  | nil => simp at hc
  | cons a as =>
    simp only [List.all_cons, Bool.and_eq_true] at h
    simp only [List.mem_append] at hc
    rcases hc with hc | hc
    · exact ((okStr_props a h.1).2 c hc).2.2.2
    · rw [List.mem_flatMap] at hc
      rcases hc with ⟨x, hx, hcx⟩
      rw [List.mem_cons] at hcx
      rcases hcx with hcx | hcx
      · rw [hcx]; decide
      · have hxok := List.all_eq_true.mp h.2 x hx
        exact ((okStr_props x hxok).2 c hcx).2.2.2

/-- Membership in a cons-append splits three ways. -/
theorem mem_slash_append {c x : Char} {A B : List Char}
    (h : c ∈ x :: A ++ B) : c = x ∨ c ∈ A ∨ c ∈ B := by
  rcases List.mem_cons.mp h with h | h
  · exact Or.inl h
  · rcases List.mem_append.mp h with h | h
    · exact Or.inr (Or.inl h)
    · exact Or.inr (Or.inr h)

/-- The rendered path of a well-formed chain and consistent parameters is
colon-free. -/
theorem renderTail_colonFree :
    ∀ (chain : List Segment) (ps : List (String × ParamValue)),
      chain.all segOk = true → consistentB chain ps = true →
      ∀ c ∈ renderTail chain ps, c ≠ ':' := by
  intro chain
  induction chain with
  | nil => intro ps _ _ c hc; simp [renderTail] at hc
  | cons s rest ih =>
    intro ps hseg hcons c hc
    simp only [List.all_cons, Bool.and_eq_true] at hseg
    obtain ⟨hs1, hs2⟩ := hseg
    rcases s with ⟨raw, ty, nm, lvl⟩
    cases ty <;> simp only [segOk] at hs1 <;> try simp at hs1
    case static =>
      simp only [renderTail] at hc
      simp only [consistentB] at hcons
      rcases mem_slash_append hc with hc | hc | hc
      · rw [hc]; decide
      · exact (okRaw_props raw hs1 c hc).2
      · exact ih ps hs2 hcons c hc
    case dynamic =>
      rcases ps with _ | ⟨⟨n, pv⟩, ps2⟩
      · simp [consistentB] at hcons
      · rcases pv with v | l
        · simp only [consistentB, Bool.and_eq_true] at hcons
          simp only [renderTail] at hc
          rcases mem_slash_append hc with hc | hc | hc
          · rw [hc]; decide
          · exact ((okStr_props v hcons.1.2).2 c hc).2.1
          · exact ih ps2 hs2 hcons.2 c hc
        · simp [consistentB] at hcons
    case catchAll =>
      rcases ps with _ | ⟨⟨n, pv⟩, ps2⟩
      · simp [consistentB] at hcons
      · rcases pv with v | l
        · simp [consistentB] at hcons
        · simp only [consistentB, Bool.and_eq_true] at hcons
          simp only [renderTail] at hc
          rcases mem_slash_append hc with hc | hc | hc
          · rw [hc]; decide
          · exact join_colonFree l hcons.1.2 c hc
          · exact ih ps2 hs2 hcons.2 c hc
    case optionalCatchAll =>
      rcases ps with _ | ⟨⟨n, pv⟩, ps2⟩
      · simp [consistentB] at hcons
      · rcases pv with v | l
        · simp [consistentB] at hcons
        · simp only [consistentB, Bool.and_eq_true] at hcons
          simp only [renderTail] at hc
          rcases mem_slash_append hc with hc | hc | hc
          · rw [hc]; decide
          · exact join_colonFree l hcons.1.2 c hc
          · exact ih ps2 hs2 hcons.2 c hc

/-- One scanning step of the occurrence test. -/
theorem occursB_cons (nd : List Char) (c : Char) (cs : List Char) :
    occursB nd (c :: cs) = (nd.isPrefixOf (c :: cs) || occursB nd cs) := rfl

/-- One step of the prefix test. -/
theorem isPrefixOf_cons (a b : Char) (as bs : List Char) :
    (a :: as).isPrefixOf (b :: bs) = (a == b && as.isPrefixOf bs) := rfl

/-- The after-shape of a pattern tail required by name_mod_mismatch. -/
theorem patTail_after (chain : List Segment) :
    patTail chain = [] ∨
      ∃ c rest, patTail chain = c :: rest ∧ ¬ isWordChar c = true := by
  rcases patTail_shape chain with h | ⟨t, h⟩
  · exact Or.inl h
  · exact Or.inr ⟨'/', t, h, by decide⟩

/-- A word-named, modifier-closed needle token occurs nowhere in the
pattern tail of a well-formed chain whose parameter names all differ from
the needle's name. -/
theorem occursB_patTail_mod (n : List Char) (md : Char) :
    ∀ chain : List Segment,
      n.all isWordChar = true → isWordChar md = false →
      chain.all segOk = true →
      (∀ s ∈ chain, s.type ≠ .static → nameCh s ≠ n) →
      occursB (':' :: (n ++ [md])) (patTail chain) = false := by
  intro chain
  induction chain with
  | nil => intro _ _ _ _; rfl
  | cons s rest ih =>
    intro hw hmd hseg hnames
    simp only [List.all_cons, Bool.and_eq_true] at hseg
    obtain ⟨hs1, hs2⟩ := hseg
    have ihr := ih hw hmd hs2
      (fun x hx ht => hnames x (List.mem_cons_of_mem _ hx) ht)
    rcases s with ⟨raw, ty, nm, lvl⟩
    have hslash : ((':' :: (n ++ [md])).isPrefixOf
        ('/' :: (tokChars ⟨raw, ty, nm, lvl⟩ ++ patTail rest))) = false := by
      rw [isPrefixOf_cons]
      simp
    cases ty <;> simp only [segOk] at hs1 <;> try simp at hs1
    case static =>
      rw [show patTail (⟨raw, .static, nm, lvl⟩ :: rest) =
        '/' :: (tokChars ⟨raw, .static, nm, lvl⟩ ++ patTail rest) from rfl]
      rw [occursB_cons, hslash, Bool.false_or]
      rw [show tokChars ⟨raw, .static, nm, lvl⟩ = raw.data from rfl]
      rw [occursB_skip (n ++ [md]) raw.data (patTail rest)
        (fun c hc => (okRaw_props raw hs1 c hc).2)]
      exact ihr
    case dynamic =>
      rcases okName_props _ hs1 with ⟨nmStr, hnm, hnd, hnw⟩
      have hnm2 : nm = some nmStr := hnm
      have hnc : nameCh ⟨raw, .dynamic, nm, lvl⟩ = nmStr.data := by
        simp [nameCh, nameText, hnm2]
      have hdiff : n ≠ nmStr.data := by
        intro he
        exact hnames _ (List.mem_cons_self _ _) (by simp) (by rw [hnc, he])
      rw [show patTail (⟨raw, .dynamic, nm, lvl⟩ :: rest) =
        '/' :: (tokChars ⟨raw, .dynamic, nm, lvl⟩ ++ patTail rest) from rfl]
      rw [occursB_cons, hslash, Bool.false_or]
      rw [show tokChars ⟨raw, .dynamic, nm, lvl⟩ ++ patTail rest =
        ':' :: (nameCh ⟨raw, .dynamic, nm, lvl⟩ ++ patTail rest) from rfl]
      rw [occursB_cons, isPrefixOf_cons]
      rw [hnc]
      rw [name_mod_mismatch md (by rw [hmd]; exact fun h => nomatch h)
        n nmStr.data (patTail rest) hw hnw hdiff (patTail_after rest)]
      rw [Bool.and_false, Bool.false_or]
      rw [occursB_skip (n ++ [md]) nmStr.data (patTail rest)
        (fun c hc => (wordChar_ne c (List.all_eq_true.mp hnw c hc)).1)]
      exact ihr
    case catchAll =>
      rcases okName_props _ hs1 with ⟨nmStr, hnm, hnd, hnw⟩
      have hnm2 : nm = some nmStr := hnm
      have hnc : nameCh ⟨raw, .catchAll, nm, lvl⟩ = nmStr.data := by
        simp [nameCh, nameText, hnm2]
      have hdiff : n ≠ nmStr.data := by
        intro he
        exact hnames _ (List.mem_cons_self _ _) (by simp) (by rw [hnc, he])
      rw [show patTail (⟨raw, .catchAll, nm, lvl⟩ :: rest) =
        '/' :: (tokChars ⟨raw, .catchAll, nm, lvl⟩ ++ patTail rest) from rfl]
      rw [occursB_cons, hslash, Bool.false_or]
      rw [show tokChars ⟨raw, .catchAll, nm, lvl⟩ ++ patTail rest =
        ':' :: ((nameCh ⟨raw, .catchAll, nm, lvl⟩ ++ ['+']) ++ patTail rest) from by
          rw [show tokChars ⟨raw, .catchAll, nm, lvl⟩ =
            ':' :: (nameCh ⟨raw, .catchAll, nm, lvl⟩ ++ ['+']) from rfl]
          simp]
      rw [occursB_cons, isPrefixOf_cons]
      rw [hnc, List.append_assoc]
      rw [name_mod_mismatch md (by rw [hmd]; exact fun h => nomatch h)
        n nmStr.data (['+'] ++ patTail rest) hw hnw hdiff
        (Or.inr ⟨'+', patTail rest, rfl, by decide⟩)]
      rw [Bool.and_false, Bool.false_or]
      rw [← List.append_assoc]
      rw [occursB_skip (n ++ [md]) (nmStr.data ++ ['+']) (patTail rest) ?side]
      case side =>
        intro c hc
        rcases List.mem_append.mp hc with hc | hc
        · exact (wordChar_ne c (List.all_eq_true.mp hnw c hc)).1
        · rcases List.mem_singleton.mp hc with rfl
          decide
      exact ihr
    case optionalCatchAll =>
      rcases okName_props _ hs1 with ⟨nmStr, hnm, hnd, hnw⟩
      have hnm2 : nm = some nmStr := hnm
      have hnc : nameCh ⟨raw, .optionalCatchAll, nm, lvl⟩ = nmStr.data := by
        simp [nameCh, nameText, hnm2]
      have hdiff : n ≠ nmStr.data := by
        intro he
        exact hnames _ (List.mem_cons_self _ _) (by simp) (by rw [hnc, he])
      rw [show patTail (⟨raw, .optionalCatchAll, nm, lvl⟩ :: rest) =
        '/' :: (tokChars ⟨raw, .optionalCatchAll, nm, lvl⟩ ++ patTail rest) from rfl]
      rw [occursB_cons, hslash, Bool.false_or]
      rw [show tokChars ⟨raw, .optionalCatchAll, nm, lvl⟩ ++ patTail rest =
        ':' :: ((nameCh ⟨raw, .optionalCatchAll, nm, lvl⟩ ++ ['*']) ++ patTail rest) from by
          rw [show tokChars ⟨raw, .optionalCatchAll, nm, lvl⟩ =
            ':' :: (nameCh ⟨raw, .optionalCatchAll, nm, lvl⟩ ++ ['*']) from rfl]
          simp]
      rw [occursB_cons, isPrefixOf_cons]
      rw [hnc, List.append_assoc]
      rw [name_mod_mismatch md (by rw [hmd]; exact fun h => nomatch h)
        n nmStr.data (['*'] ++ patTail rest) hw hnw hdiff
        (Or.inr ⟨'*', patTail rest, rfl, by decide⟩)]
      rw [Bool.and_false, Bool.false_or]
      rw [← List.append_assoc]
      rw [occursB_skip (n ++ [md]) (nmStr.data ++ ['*']) (patTail rest) ?side2]
      case side2 =>
        intro c hc
        rcases List.mem_append.mp hc with hc | hc
        · exact (wordChar_ne c (List.all_eq_true.mp hnw c hc)).1
        · rcases List.mem_singleton.mp hc with rfl
          decide
      exact ihr

/-- memB decides membership. -/
theorem memB_iff (x : String) : ∀ l : List String, memB x l = true ↔ x ∈ l := by
  intro l
  induction l with
  | nil => simp [memB]
  | cons y ys ih => simp [memB, ih]

/-- Every non-static segment's name text is among the chain's parameter
names. -/
theorem mem_paramNames :
    ∀ (chain : List Segment) (x : Segment), x ∈ chain → x.type ≠ .static →
      nameText x.name ∈ paramNames chain := by
  intro chain
  induction chain with
  | nil => intro x hx; cases hx
  | cons s rest ih =>
    intro x hx ht
    rcases List.mem_cons.mp hx with rfl | hx
    · simp [paramNames, ht]
    · by_cases hs : s.type = .static
      · simpa [paramNames, hs] using ih x hx ht
      · simp only [paramNames, if_neg hs]
        exact List.mem_cons_of_mem _ (ih x hx ht)

/-- Tail stability of the catch-all-last condition. -/
theorem noCatchBeforeEnd_tail (s : Segment) (rest : List Segment)
    (h : noCatchBeforeEnd (s :: rest) = true) : noCatchBeforeEnd rest = true := by
  cases rest with
  | nil => rfl
  | cons t ts =>
    rw [show noCatchBeforeEnd (s :: t :: ts) =
      ((s.type = .static || s.type = .dynamic) && noCatchBeforeEnd (t :: ts)) from rfl,
      Bool.and_eq_true] at h
    exact h.2

/-- A modifier character is no prefix of a pattern tail. -/
theorem mod_not_prefix_patTail (md : Char) (hmd : md ≠ '/') (chain : List Segment) :
    [md].isPrefixOf (patTail chain) = false := by
  rcases patTail_shape chain with h | ⟨t, h⟩ <;> rw [h]
  · rfl
  · rw [isPrefixOf_cons]
    simp [hmd]

/-- Non-occurrence of a needle token in the whole working string of one
generatePath step: colon-free prefix, slash, the current name-token with a
mismatched modifier, then the remaining pattern tail. -/
theorem occursB_step_false (pre n : List Char) (md : Char) (rest : List Segment)
    (tokTl : List Char)
    (hpre : ∀ c ∈ pre, c ≠ ':')
    (hw : n.all isWordChar = true) (hmd : isWordChar md = false)
    (hseg : rest.all segOk = true)
    (hnames : ∀ x ∈ rest, x.type ≠ .static → nameCh x ≠ n)
    (htok : [md].isPrefixOf (tokTl ++ patTail rest) = false)
    (htl : ∀ c ∈ tokTl, c ≠ ':') :
    occursB (':' :: (n ++ [md]))
      (pre ++ '/' :: ':' :: (n ++ (tokTl ++ patTail rest))) = false := by
  rw [occursB_skip _ pre _ hpre]
  rw [occursB_cons]
  rw [isPrefixOf_cons]
  rw [show (':' == '/') = false from rfl, Bool.false_and, Bool.false_or]
  rw [occursB_cons]
  rw [isPrefixOf_cons]
  rw [show (':' == ':') = true from rfl, Bool.true_and]
  rw [isPrefixOf_append_cancel n [md] (tokTl ++ patTail rest)]
  rw [htok, Bool.false_or]
  rw [occursB_skip _ n _ (fun c hc =>
    (wordChar_ne c (List.all_eq_true.mp hw c hc)).1)]
  rw [occursB_skip _ tokTl _ htl]
  exact occursB_patTail_mod n md rest hw hmd hseg hnames

/-- A colon-headed needle replaces exactly at the front token when the
text before it is colon-free. -/
theorem replace_here_step (pre n val B : List Char)
    (hpre : ∀ c ∈ pre, c ≠ ':') :
    replaceFirstAux (':' :: n) val (pre ++ '/' :: ':' :: (n ++ B)) =
      pre ++ '/' :: (val ++ B) := by
  have hsafe : ∀ c ∈ pre ++ ['/'], c ≠ ':' := by
    intro c hc
    rcases List.mem_append.mp hc with hc | hc
    · exact hpre c hc
    · rcases List.mem_singleton.mp hc with rfl
      decide
  rw [show pre ++ '/' :: ':' :: (n ++ B) = (pre ++ ['/']) ++ ((':' :: n) ++ B) by simp]
  rw [replaceFirstAux_skip n val (pre ++ ['/']) _ hsafe]
  rw [replaceFirstAux_here]
  simp

/-- Needle text of the star form. -/
theorem needle_star_data (n : String) :
    (":" ++ n ++ "*").data = ':' :: (n.data ++ ['*']) := by
  simp [String.data_append]

/-- Needle text of the plus form. -/
theorem needle_plus_data (n : String) :
    (":" ++ n ++ "+").data = ':' :: (n.data ++ ['+']) := by
  simp [String.data_append]

/-- Needle text of the plain form. -/
theorem needle_plain_data (n : String) :
    (":" ++ n).data = ':' :: n.data := by
  simp [String.data_append]

/-- One generatePath step at a dynamic token: the star and plus needles
miss, the plain needle replaces exactly the token. -/
theorem paramStep_dynamic (pre : List Char) (n val : String) (rest : List Segment)
    (hpre : ∀ c ∈ pre, c ≠ ':')
    (hnw : n.data.all isWordChar = true)
    (hseg : rest.all segOk = true)
    (hnames : ∀ x ∈ rest, x.type ≠ .static → nameCh x ≠ n.data) :
    paramStep (String.mk (pre ++ '/' :: ':' :: (n.data ++ ([] ++ patTail rest))))
        n (.str val) true =
      .ok (String.mk (pre ++ '/' :: (val.data ++ patTail rest))) := by
  show Except.ok (replaceFirst (replaceFirst (replaceFirst
      (String.mk (pre ++ '/' :: ':' :: (n.data ++ ([] ++ patTail rest))))
      (":" ++ n ++ "*") val) (":" ++ n ++ "+") val) (":" ++ n) val) = _
  rw [show replaceFirst (String.mk (pre ++ '/' :: ':' :: (n.data ++ ([] ++ patTail rest))))
      (":" ++ n ++ "*") val =
    String.mk (replaceFirstAux ((":" ++ n ++ "*").data) val.data
      (pre ++ '/' :: ':' :: (n.data ++ ([] ++ patTail rest)))) from rfl]
  rw [needle_star_data]
  rw [replaceFirstAux_of_not_occurs _ _ _
    (occursB_step_false pre n.data '*' rest [] hpre hnw (by decide) hseg hnames
      (by simpa using mod_not_prefix_patTail '*' (by decide) rest)
      (by intro c hc; cases hc))]
  rw [show replaceFirst (String.mk (pre ++ '/' :: ':' :: (n.data ++ ([] ++ patTail rest))))
      (":" ++ n ++ "+") val =
    String.mk (replaceFirstAux ((":" ++ n ++ "+").data) val.data
      (pre ++ '/' :: ':' :: (n.data ++ ([] ++ patTail rest)))) from rfl]
  rw [needle_plus_data]
  rw [replaceFirstAux_of_not_occurs _ _ _
    (occursB_step_false pre n.data '+' rest [] hpre hnw (by decide) hseg hnames
      (by simpa using mod_not_prefix_patTail '+' (by decide) rest)
      (by intro c hc; cases hc))]
  rw [show replaceFirst (String.mk (pre ++ '/' :: ':' :: (n.data ++ ([] ++ patTail rest))))
      (":" ++ n) val =
    String.mk (replaceFirstAux ((":" ++ n).data) val.data
      (pre ++ '/' :: ':' :: (n.data ++ ([] ++ patTail rest)))) from rfl]
  rw [needle_plain_data]
  rw [show pre ++ '/' :: ':' :: (n.data ++ ([] ++ patTail rest)) =
    pre ++ '/' :: ':' :: (n.data ++ patTail rest) by simp]
  rw [replace_here_step pre n.data val.data (patTail rest) hpre]

/-- One generatePath step at a final catch-all token: the star needle
misses, the plus needle replaces the token, the plain needle then finds a
colon-free string. -/
theorem paramStep_catchAll (pre : List Char) (n : String) (a b : String)
    (l2 : List String)
    (hpre : ∀ c ∈ pre, c ≠ ':')
    (hnw : n.data.all isWordChar = true)
    (hallok : (a :: b :: l2).all okStr = true) :
    paramStep (String.mk (pre ++ '/' :: ':' :: (n.data ++ (['+'] ++ patTail []))))
        n (.arr (a :: b :: l2)) true =
      .ok (String.mk (pre ++ '/' ::
        ((String.intercalate "/" (a :: b :: l2)).data ++ []))) := by
  show Except.ok (replaceFirst (replaceFirst (replaceFirst
      (String.mk (pre ++ '/' :: ':' :: (n.data ++ (['+'] ++ patTail []))))
      (":" ++ n ++ "*") (String.intercalate "/" (a :: b :: l2)))
      (":" ++ n ++ "+") (String.intercalate "/" (a :: b :: l2)))
      (":" ++ n) (String.intercalate "/" (a :: b :: l2))) = _
  rw [show replaceFirst (String.mk (pre ++ '/' :: ':' :: (n.data ++ (['+'] ++ patTail []))))
      (":" ++ n ++ "*") (String.intercalate "/" (a :: b :: l2)) =
    String.mk (replaceFirstAux ((":" ++ n ++ "*").data)
      (String.intercalate "/" (a :: b :: l2)).data
      (pre ++ '/' :: ':' :: (n.data ++ (['+'] ++ patTail [])))) from rfl]
  rw [needle_star_data]
  rw [replaceFirstAux_of_not_occurs _ _ _
    (occursB_step_false pre n.data '*' [] ['+'] hpre hnw (by decide) (by rfl)
      (by intro x hx; cases hx) (by decide)
      (by intro c hc; rcases List.mem_singleton.mp hc with rfl; decide))]
  rw [show replaceFirst (String.mk (pre ++ '/' :: ':' :: (n.data ++ (['+'] ++ patTail []))))
      (":" ++ n ++ "+") (String.intercalate "/" (a :: b :: l2)) =
    String.mk (replaceFirstAux ((":" ++ n ++ "+").data)
      (String.intercalate "/" (a :: b :: l2)).data
      (pre ++ '/' :: ':' :: (n.data ++ (['+'] ++ patTail [])))) from rfl]
  rw [needle_plus_data]
  rw [show pre ++ '/' :: ':' :: (n.data ++ (['+'] ++ patTail [])) =
    pre ++ '/' :: ':' :: ((n.data ++ ['+']) ++ []) by simp [patTail]]
  rw [replace_here_step pre (n.data ++ ['+'])
    (String.intercalate "/" (a :: b :: l2)).data [] hpre]
  rw [show replaceFirst (String.mk (pre ++ '/' ::
      ((String.intercalate "/" (a :: b :: l2)).data ++ [])))
      (":" ++ n) (String.intercalate "/" (a :: b :: l2)) =
    String.mk (replaceFirstAux ((":" ++ n).data)
      (String.intercalate "/" (a :: b :: l2)).data
      (pre ++ '/' :: ((String.intercalate "/" (a :: b :: l2)).data ++ []))) from rfl]
  rw [needle_plain_data]
  rw [replaceFirstAux_of_not_occurs _ _ _ (occursB_colonFree n.data _ ?cfree)]
  case cfree =>
    intro c hc
    rcases List.mem_append.mp hc with hc | hc
    · exact hpre c hc
    · rcases List.mem_cons.mp hc with rfl | hc
      · decide
      · rcases List.mem_append.mp hc with hc | hc
        · exact join_colonFree _ hallok c hc
        · cases hc

/-- One generatePath step at a final optional-catch-all token: the star
needle replaces the token immediately, the remaining needles find a
colon-free string. -/
theorem paramStep_optCatchAll (pre : List Char) (n : String) (a b : String)
    (l2 : List String)
    (hpre : ∀ c ∈ pre, c ≠ ':')
    (hallok : (a :: b :: l2).all okStr = true) :
    paramStep (String.mk (pre ++ '/' :: ':' :: (n.data ++ (['*'] ++ patTail []))))
        n (.arr (a :: b :: l2)) true =
      .ok (String.mk (pre ++ '/' ::
        ((String.intercalate "/" (a :: b :: l2)).data ++ []))) := by
  have hcf : ∀ c ∈ pre ++ '/' ::
      ((String.intercalate "/" (a :: b :: l2)).data ++ []), c ≠ ':' := by
    intro c hc
    rcases List.mem_append.mp hc with hc | hc
    · exact hpre c hc
    · rcases List.mem_cons.mp hc with rfl | hc
      · decide
      · rcases List.mem_append.mp hc with hc | hc
        · exact join_colonFree _ hallok c hc
        · cases hc
  show Except.ok (replaceFirst (replaceFirst (replaceFirst
      (String.mk (pre ++ '/' :: ':' :: (n.data ++ (['*'] ++ patTail []))))
      (":" ++ n ++ "*") (String.intercalate "/" (a :: b :: l2)))
      (":" ++ n ++ "+") (String.intercalate "/" (a :: b :: l2)))
      (":" ++ n) (String.intercalate "/" (a :: b :: l2))) = _
  rw [show replaceFirst (String.mk (pre ++ '/' :: ':' :: (n.data ++ (['*'] ++ patTail []))))
      (":" ++ n ++ "*") (String.intercalate "/" (a :: b :: l2)) =
    String.mk (replaceFirstAux ((":" ++ n ++ "*").data)
      (String.intercalate "/" (a :: b :: l2)).data
      (pre ++ '/' :: ':' :: (n.data ++ (['*'] ++ patTail [])))) from rfl]
  rw [needle_star_data]
  rw [show pre ++ '/' :: ':' :: (n.data ++ (['*'] ++ patTail [])) =
    pre ++ '/' :: ':' :: ((n.data ++ ['*']) ++ []) by simp [patTail]]
  rw [replace_here_step pre (n.data ++ ['*'])
    (String.intercalate "/" (a :: b :: l2)).data [] hpre]
  rw [show replaceFirst (String.mk (pre ++ '/' ::
      ((String.intercalate "/" (a :: b :: l2)).data ++ [])))
      (":" ++ n ++ "+") (String.intercalate "/" (a :: b :: l2)) =
    String.mk (replaceFirstAux ((":" ++ n ++ "+").data)
      (String.intercalate "/" (a :: b :: l2)).data
      (pre ++ '/' :: ((String.intercalate "/" (a :: b :: l2)).data ++ []))) from rfl]
  rw [needle_plus_data]
  rw [replaceFirstAux_of_not_occurs _ _ _
    (occursB_colonFree (n.data ++ ['+']) _ hcf)]
  rw [show replaceFirst (String.mk (pre ++ '/' ::
      ((String.intercalate "/" (a :: b :: l2)).data ++ [])))
      (":" ++ n) (String.intercalate "/" (a :: b :: l2)) =
    String.mk (replaceFirstAux ((":" ++ n).data)
      (String.intercalate "/" (a :: b :: l2)).data
      (pre ++ '/' :: ((String.intercalate "/" (a :: b :: l2)).data ++ []))) from rfl]
  rw [needle_plain_data]
  rw [replaceFirstAux_of_not_occurs _ _ _ (occursB_colonFree n.data _ hcf)]

/-- The parameter loop of generatePath substitutes a well-formed chain's
tokens left to right, turning the pattern tail into the rendered path
tail, over any colon-free already-substituted prefix. -/
theorem genLoop_master :
    ∀ (chain : List Segment) (ps : List (String × ParamValue)) (pre : List Char),
      chain.all segOk = true → noCatchBeforeEnd chain = true →
      nodupB (paramNames chain) = true → consistentB chain ps = true →
      (∀ c ∈ pre, c ≠ ':') →
      genLoop (String.mk (pre ++ patTail chain)) ps true =
        .ok (String.mk (pre ++ renderTail chain ps)) := by
  intro chain
  induction chain with
  | nil =>
    intro ps pre _ _ _ hcons _
    cases ps with
    | nil => rfl
    | cons p ps2 => exact absurd hcons (by simp [consistentB])
  | cons s rest ih =>
    intro ps pre hseg hnc hnd hcons hpre
    simp only [List.all_cons, Bool.and_eq_true] at hseg
    obtain ⟨hs1, hs2⟩ := hseg
    have hnc2 := noCatchBeforeEnd_tail s rest hnc
    rcases s with ⟨raw, ty, nm, lvl⟩
    cases ty <;> simp only [segOk] at hs1 <;> try simp at hs1
    case static =>
      have hnd2 : nodupB (paramNames rest) = true := by
        simpa [paramNames] using hnd
      have hcons2 : consistentB rest ps = true := by
        simpa [consistentB] using hcons
      have hpre2 : ∀ c ∈ pre ++ '/' :: raw.data, c ≠ ':' := by
        intro c hc
        rcases List.mem_append.mp hc with hc | hc
        · exact hpre c hc
        · rcases List.mem_cons.mp hc with rfl | hc
          · decide
          · exact (okRaw_props raw hs1 c hc).2
      rw [show pre ++ patTail (⟨raw, .static, nm, lvl⟩ :: rest) =
        (pre ++ '/' :: raw.data) ++ patTail rest by simp [patTail, tokChars]]
      rw [show pre ++ renderTail (⟨raw, .static, nm, lvl⟩ :: rest) ps =
        (pre ++ '/' :: raw.data) ++ renderTail rest ps by simp [renderTail]]
      exact ih ps (pre ++ '/' :: raw.data) hs2 hnc2 hnd2 hcons2 hpre2
    case dynamic =>
      rcases okName_props _ hs1 with ⟨nmS, hnm, hnd0, hnw⟩
      have hnm2 : nm = some nmS := hnm
      subst hnm2
      rcases ps with _ | ⟨⟨pname, pv⟩, ps2⟩
      · exact absurd hcons (by simp [consistentB])
      rcases pv with val | l
      swap
      · exact absurd hcons (by simp [consistentB])
      simp only [consistentB, Bool.and_eq_true] at hcons
      obtain ⟨⟨hbeq, hok⟩, hcons2⟩ := hcons
      have hpn : nmS = pname := by
        have : (some nmS == some pname) = true := hbeq
        simpa using this
      subst hpn
      have hnd2 : nodupB (paramNames rest) = true := by
        have : nodupB (nameText (some nmS) :: paramNames rest) = true := by
          simpa [paramNames] using hnd
        rw [show nodupB (nameText (some nmS) :: paramNames rest) =
          (!memB (nameText (some nmS)) (paramNames rest) &&
            nodupB (paramNames rest)) from rfl, Bool.and_eq_true] at this
        exact this.2
      have hmem : memB nmS (paramNames rest) = false := by
        have : nodupB (nameText (some nmS) :: paramNames rest) = true := by
          simpa [paramNames] using hnd
        rw [show nodupB (nameText (some nmS) :: paramNames rest) =
          (!memB (nameText (some nmS)) (paramNames rest) &&
            nodupB (paramNames rest)) from rfl, Bool.and_eq_true] at this
        have h1 := this.1
        rw [show nameText (some nmS) = nmS from rfl] at h1
        simpa using h1
      have hnames : ∀ x ∈ rest, x.type ≠ .static → nameCh x ≠ nmS.data := by
        intro x hx ht he
        have hdx : (nameText x.name).data = nmS.data := he
        have hxe : nameText x.name = nmS := by
          cases hname : nameText x.name
          cases nmS
          rw [hname] at hdx
          simp at hdx
          rw [hdx]
        have hm := mem_paramNames rest x hx ht
        rw [hxe] at hm
        rw [← memB_iff] at hm
        rw [hm] at hmem
        cases hmem
      have hlay : pre ++ patTail (⟨raw, .dynamic, some nmS, lvl⟩ :: rest) =
          pre ++ '/' :: ':' :: (nmS.data ++ ([] ++ patTail rest)) := by
        simp [patTail, tokChars, nameCh, nameText]
      rw [show genLoop (String.mk (pre ++ patTail (⟨raw, .dynamic, some nmS, lvl⟩ :: rest)))
          ((nmS, ParamValue.str val) :: ps2) true =
        (match paramStep (String.mk (pre ++ patTail (⟨raw, .dynamic, some nmS, lvl⟩ :: rest)))
            nmS (ParamValue.str val) true with
         | .error e => .error e
         | .ok r => genLoop r ps2 true) from rfl]
      rw [hlay]
      rw [paramStep_dynamic pre nmS val rest hpre hnw hs2 hnames]
      show genLoop (String.mk (pre ++ '/' :: (val.data ++ patTail rest))) ps2 true = _
      rw [show String.mk (pre ++ '/' :: (val.data ++ patTail rest)) =
        String.mk ((pre ++ '/' :: val.data) ++ patTail rest) by simp]
      have hpre2 : ∀ c ∈ pre ++ '/' :: val.data, c ≠ ':' := by
        intro c hc
        rcases List.mem_append.mp hc with hc | hc
        · exact hpre c hc
        · rcases List.mem_cons.mp hc with rfl | hc
          · decide
          · exact ((okStr_props val hok).2 c hc).2.1
      rw [ih ps2 (pre ++ '/' :: val.data) hs2 hnc2 hnd2 hcons2 hpre2]
      rw [show renderTail (⟨raw, .dynamic, some nmS, lvl⟩ :: rest)
          ((nmS, ParamValue.str val) :: ps2) =
        '/' :: val.data ++ renderTail rest ps2 from rfl]
      rw [show pre ++ ('/' :: val.data ++ renderTail rest ps2) =
        (pre ++ '/' :: val.data) ++ renderTail rest ps2 by simp]
    case catchAll =>
      rcases okName_props _ hs1 with ⟨nmS, hnm, hnd0, hnw⟩
      have hnm2 : nm = some nmS := hnm
      subst hnm2
      have hrest : rest = [] := by
        cases rest with
        | nil => rfl
        | cons t ts =>
          rw [show noCatchBeforeEnd (⟨raw, .catchAll, some nmS, lvl⟩ :: t :: ts) =
            ((SegmentType.catchAll = SegmentType.static ||
              SegmentType.catchAll = SegmentType.dynamic) &&
              noCatchBeforeEnd (t :: ts)) from rfl] at hnc
          simp at hnc
      subst hrest
      rcases ps with _ | ⟨⟨pname, pv⟩, ps2⟩
      · exact absurd hcons (by simp [consistentB])
      rcases pv with val | l
      · exact absurd hcons (by simp [consistentB])
      simp only [consistentB, Bool.and_eq_true] at hcons
      obtain ⟨⟨⟨hbeq, hlen⟩, hallok⟩, hcons2⟩ := hcons
      have hpn : nmS = pname := by
        have : (some nmS == some pname) = true := hbeq
        simpa using this
      subst hpn
      have hps2 : ps2 = [] := by
        cases ps2 with
        | nil => rfl
        | cons q qs => exact absurd hcons2 (by simp [consistentB])
      subst hps2
      rcases l with _ | ⟨a, l1⟩
      · simp at hlen
      rcases l1 with _ | ⟨b, l2⟩
      · simp at hlen
      have hlay : pre ++ patTail [⟨raw, .catchAll, some nmS, lvl⟩] =
          pre ++ '/' :: ':' :: (nmS.data ++ (['+'] ++ patTail [])) := by
        simp [patTail, tokChars, nameCh, nameText]
      rw [show genLoop (String.mk (pre ++ patTail [⟨raw, .catchAll, some nmS, lvl⟩]))
          [(nmS, ParamValue.arr (a :: b :: l2))] true =
        (match paramStep (String.mk (pre ++ patTail [⟨raw, .catchAll, some nmS, lvl⟩]))
            nmS (ParamValue.arr (a :: b :: l2)) true with
         | .error e => .error e
         | .ok r => genLoop r [] true) from rfl]
      rw [hlay]
      rw [paramStep_catchAll pre nmS a b l2 hpre hnw hallok]
      show Except.ok (String.mk (pre ++ '/' ::
        ((String.intercalate "/" (a :: b :: l2)).data ++ []))) = _
      rw [show renderTail [⟨raw, .catchAll, some nmS, lvl⟩]
          [(nmS, ParamValue.arr (a :: b :: l2))] =
        '/' :: (String.intercalate "/" (a :: b :: l2)).data ++ renderTail [] [] from rfl]
      simp [renderTail]
    case optionalCatchAll =>
      rcases okName_props _ hs1 with ⟨nmS, hnm, hnd0, hnw⟩
      have hnm2 : nm = some nmS := hnm
      subst hnm2
      have hrest : rest = [] := by
        cases rest with
        | nil => rfl
        | cons t ts =>
          rw [show noCatchBeforeEnd (⟨raw, .optionalCatchAll, some nmS, lvl⟩ :: t :: ts) =
            ((SegmentType.optionalCatchAll = SegmentType.static ||
              SegmentType.optionalCatchAll = SegmentType.dynamic) &&
              noCatchBeforeEnd (t :: ts)) from rfl] at hnc
          simp at hnc
      subst hrest
      rcases ps with _ | ⟨⟨pname, pv⟩, ps2⟩
      · exact absurd hcons (by simp [consistentB])
      rcases pv with val | l
      · exact absurd hcons (by simp [consistentB])
      simp only [consistentB, Bool.and_eq_true] at hcons
      obtain ⟨⟨⟨hbeq, hlen⟩, hallok⟩, hcons2⟩ := hcons
      have hpn : nmS = pname := by
        have : (some nmS == some pname) = true := hbeq
        simpa using this
      subst hpn
      have hps2 : ps2 = [] := by
        cases ps2 with
        | nil => rfl
        | cons q qs => exact absurd hcons2 (by simp [consistentB])
      subst hps2
      rcases l with _ | ⟨a, l1⟩
      · simp at hlen
      rcases l1 with _ | ⟨b, l2⟩
      · simp at hlen
      have hlay : pre ++ patTail [⟨raw, .optionalCatchAll, some nmS, lvl⟩] =
          pre ++ '/' :: ':' :: (nmS.data ++ (['*'] ++ patTail [])) := by
        simp [patTail, tokChars, nameCh, nameText]
      rw [show genLoop (String.mk (pre ++ patTail [⟨raw, .optionalCatchAll, some nmS, lvl⟩]))
          [(nmS, ParamValue.arr (a :: b :: l2))] true =
        (match paramStep (String.mk (pre ++ patTail [⟨raw, .optionalCatchAll, some nmS, lvl⟩]))
            nmS (ParamValue.arr (a :: b :: l2)) true with
         | .error e => .error e
         | .ok r => genLoop r [] true) from rfl]
      rw [hlay]
      rw [paramStep_optCatchAll pre nmS a b l2 hpre hallok]
      show Except.ok (String.mk (pre ++ '/' ::
        ((String.intercalate "/" (a :: b :: l2)).data ++ []))) = _
      rw [show renderTail [⟨raw, .optionalCatchAll, some nmS, lvl⟩]
          [(nmS, ParamValue.arr (a :: b :: l2))] =
        '/' :: (String.intercalate "/" (a :: b :: l2)).data ++ renderTail [] [] from rfl]
      simp [renderTail]

/-- The residual-token scan finds nothing in colon-free text. -/
theorem findTokensF_colonFree :
    ∀ (fuel : Nat) (s : List Char), (∀ c ∈ s, c ≠ ':') →
      findTokensF fuel s = [] := by
  intro fuel
  induction fuel with
  | zero => intro s _; cases s <;> rfl
  | succ f ih =>
    intro s hs
    cases s with
    | nil => rfl
    | cons c cs =>
      have hc : c ≠ ':' := hs c (by simp)
      simp only [findTokensF, if_neg hc]
      exact ih cs (fun x hx => hs x (List.mem_cons_of_mem _ hx))

/-- generatePath on the built pattern of a well-formed chain with
consistent parameters produces exactly the rendered path. -/
theorem generatePath_patTail (chain : List Segment)
    (ps : List (String × ParamValue))
    (hseg : chain.all segOk = true) (hnc : noCatchBeforeEnd chain = true)
    (hnd : nodupB (paramNames chain) = true)
    (hcons : consistentB chain ps = true) :
    generatePath (String.mk (patTail chain)) ps true =
      .ok (String.mk (renderTail chain ps)) := by
  have hg := genLoop_master chain ps [] hseg hnc hnd hcons (by intro c hc; cases hc)
  rw [List.nil_append, List.nil_append] at hg
  unfold generatePath
  rw [hg]
  show (if (findTokens (String.mk (renderTail chain ps)).data).length > 0 && true
    then Except.error ("Missing required parameters: " ++
      String.intercalate ", " (findTokens (String.mk (renderTail chain ps)).data))
    else Except.ok (String.mk (renderTail chain ps))) = _
  rw [show (String.mk (renderTail chain ps)).data = renderTail chain ps from rfl]
  rw [show findTokens (renderTail chain ps) =
    findTokensF ((renderTail chain ps).length + 1) (renderTail chain ps) from rfl]
  rw [findTokensF_colonFree _ _ (renderTail_colonFree chain ps hseg hcons)]
  simp

/-- The single pattern token of a URL-affecting segment, as a string. -/
def tokStr (s : Segment) : String :=
  match s.type with
  | .static => s.raw
  | .dynamic => ":" ++ nameText s.name
  | .catchAll => ":" ++ nameText s.name ++ "+"
  | .optionalCatchAll => ":" ++ nameText s.name ++ "*"
  | _ => ""

/-- Parts the split scan produces on the pattern tail of a chain, given
the pending reversed literal accumulator. -/
def partsFor : List Segment → List Char → List Part
  | [], acc => [Part.lit acc.reverse]
  | s :: rest, acc =>
    match s.type with
    | .static => partsFor rest (s.raw.data.reverse ++ '/' :: acc)
    | .dynamic =>
      Part.lit acc.reverse :: Part.tok true (nameCh s) .plain :: partsFor rest []
    | .catchAll =>
      Part.lit acc.reverse :: Part.tok true (nameCh s) .plus :: partsFor rest []
    | .optionalCatchAll =>
      Part.lit acc.reverse :: Part.tok true (nameCh s) .star :: partsFor rest []
    | _ => []

/-- Capture list the matcher extracts from the rendered path of a chain
with consistent parameters, in chain order. -/
def capsOf : List Segment → List (String × ParamValue) → List (Option (List Char))
  | [], _ => []
  | s :: rest, ps =>
    match s.type with
    | .static => capsOf rest ps
    | .dynamic =>
      match ps with
      | (_, .str v) :: ps2 => some v.data :: capsOf rest ps2
      | _ => []
    | .catchAll =>
      match ps with
      | (_, .arr l) :: ps2 => some (String.intercalate "/" l).data :: capsOf rest ps2
      | _ => []
    | .optionalCatchAll =>
      match ps with
      | (_, .arr l) :: ps2 => some (String.intercalate "/" l).data :: capsOf rest ps2
      | _ => []
    | _ => []

/-- On a well-formed segment the builder pushes exactly its token. -/
theorem buildTokens_eq_tokStr (s : Segment) (h : segOk s = true) :
    buildTokens s = [tokStr s] := by
  rcases s with ⟨raw, ty, nm, lvl⟩
  cases ty <;> first | rfl | simp [segOk] at h

/-- The token string's characters are the segment's token characters. -/
theorem tokStr_data (s : Segment) (h : segOk s = true) :
    (tokStr s).data = tokChars s := by
  rcases s with ⟨raw, ty, nm, lvl⟩
  cases ty <;> first
    | rfl
    | simp [tokStr, tokChars, nameCh, String.data_append]
    | simp [segOk] at h

/-- Flattened builder tokens of a well-formed chain. -/
theorem flatten_buildTokens :
    ∀ chain : List Segment, chain.all segOk = true →
      (chain.map buildTokens).flatten = chain.map tokStr := by
  intro chain
  induction chain with
  | nil => intro _; rfl
  | cons s rest ih =>
    intro h
    simp only [List.all_cons, Bool.and_eq_true] at h
    simp only [List.map_cons, List.flatten_cons, buildTokens_eq_tokStr s h.1, ih h.2]
    rfl

/-- Slash-prefixed token texts of a well-formed chain concatenate to its
pattern tail. -/
theorem flatMap_tokStr :
    ∀ chain : List Segment, chain.all segOk = true →
      (chain.map tokStr).flatMap (fun x => '/' :: x.data) = patTail chain := by
  intro chain
  induction chain with
  | nil => intro _; rfl
  | cons s rest ih =>
    intro h
    simp only [List.all_cons, Bool.and_eq_true] at h
    simp only [List.map_cons, List.flatMap_cons, ih h.2, tokStr_data s h.1]
    rfl

/-- The built pattern of a non-empty well-formed chain is exactly its
pattern tail. -/
theorem build_pattern_data (s : Segment) (rest : List Segment)
    (h : (s :: rest).all segOk = true) :
    (build (s :: rest)).pattern.data = patTail (s :: rest) := by
  have h2 := h
  simp only [List.all_cons, Bool.and_eq_true] at h2
  show ("/" ++ String.intercalate "/" (((s :: rest).map buildTokens).flatten)).data = _
  rw [flatten_buildTokens _ h]
  rw [String.data_append]
  rw [show (s :: rest).map tokStr = tokStr s :: rest.map tokStr from rfl]
  rw [intercalate_slash_data]
  show "/".data ++ ((tokStr s).data ++
    (rest.map tokStr).flatMap (fun x => '/' :: x.data)) = _
  rw [flatMap_tokStr rest h2.2, tokStr_data s h2.1]
  show '/' :: (tokChars s ++ patTail rest) = '/' :: tokChars s ++ patTail rest
  simp

/-- No split token starts at a character that is neither slash nor colon. -/
theorem tokAt_none_head (c : Char) (t : List Char) (h1 : c ≠ '/') (h2 : c ≠ ':') :
    tokAt (c :: t) = none := by
  simp [tokAt, h1, h2]

/-- No split token starts at a slash not followed by a colon. -/
theorem tokAt_slash_stop (t : List Char)
    (h : t = [] ∨ ∃ c r, t = c :: r ∧ c ≠ ':') :
    tokAt ('/' :: t) = none := by
  rcases h with rfl | ⟨c, r, rfl, hc⟩
  · rfl
  · simp [tokAt, hc]

/-- The split scan walks over a slash- and colon-free chunk, moving it
into the literal accumulator. -/
theorem splitGoF_skip_raw :
    ∀ (raw : List Char) (k : Nat) (acc s : List Char),
      (∀ c ∈ raw, c ≠ '/' ∧ c ≠ ':') →
      splitGoF (raw.length + k) acc (raw ++ s) =
        splitGoF k (raw.reverse ++ acc) s := by
  intro raw
  induction raw with
  | nil => intro k acc s _; simp
  | cons c cs ih =>
    intro k acc s h
    have hc := h c (by simp)
    have h2 : ∀ x ∈ cs, x ≠ '/' ∧ x ≠ ':' := fun x hx => h x (by simp [hx])
    have hlen : (c :: cs).length + k = (cs.length + k) + 1 := by
      simp [List.length_cons]; omega
    rw [hlen]
    rw [show ((c :: cs) ++ s) = c :: (cs ++ s) from rfl]
    rw [show splitGoF ((cs.length + k) + 1) acc (c :: (cs ++ s)) =
      (match tokAt (c :: (cs ++ s)) with
       | some (tk, r) => Part.lit acc.reverse :: tk :: splitGoF (cs.length + k) [] r
       | none => splitGoF (cs.length + k) (c :: acc) (cs ++ s)) from rfl]
    rw [tokAt_none_head c (cs ++ s) hc.1 hc.2]
    rw [ih k (c :: acc) s h2]
    simp

/-- The token starting at a dynamic segment's slot: colon, the full name
run, plain modifier, remainder the following pattern tail. -/
theorem tokAt_dynamic (nmS : String) (rest : List Segment)
    (hnd0 : nmS.data ≠ []) (hnw : nmS.data.all isWordChar = true) :
    tokAt ('/' :: ':' :: (nmS.data ++ patTail rest)) =
      some (Part.tok true nmS.data .plain, patTail rest) := by
  rcases hd : nmS.data with _ | ⟨c3, ntl⟩
  · exact absurd hd hnd0
  rw [hd] at hnw
  have hc3 : isWordChar c3 = true := List.all_eq_true.mp hnw c3 (by simp)
  rw [show tokAt ('/' :: ':' :: ((c3 :: ntl) ++ patTail rest)) =
    (if isWordChar c3 then some (mkTok true ((c3 :: ntl) ++ patTail rest))
     else none) from rfl]
  rw [if_pos hc3]
  have hB : patTail rest = [] ∨
      ∃ c r, patTail rest = c :: r ∧ isWordChar c = false := by
    rcases patTail_shape rest with h | ⟨t, h⟩
    · exact Or.inl h
    · exact Or.inr ⟨'/', t, h, by decide⟩
  have hrun := takeWhile_run isWordChar (c3 :: ntl) (patTail rest) hnw hB
  rw [show mkTok true ((c3 :: ntl) ++ patTail rest) =
    (match ((c3 :: ntl) ++ patTail rest).dropWhile isWordChar with
     | m :: rest2 =>
       if m = '*' then
         (Part.tok true (((c3 :: ntl) ++ patTail rest).takeWhile isWordChar) .star, rest2)
       else if m = '+' then
         (Part.tok true (((c3 :: ntl) ++ patTail rest).takeWhile isWordChar) .plus, rest2)
       else
         (Part.tok true (((c3 :: ntl) ++ patTail rest).takeWhile isWordChar) .plain,
          m :: rest2)
     | [] =>
       (Part.tok true (((c3 :: ntl) ++ patTail rest).takeWhile isWordChar) .plain,
        [])) from rfl]
  rw [hrun.1, hrun.2]
  rcases patTail_shape rest with hp | ⟨t, hp⟩ <;> rw [hp] <;> simp

/-- The token starting at a catch-all segment's slot: plus modifier. -/
theorem tokAt_catchAll (nmS : String) (rest : List Segment)
    (hnd0 : nmS.data ≠ []) (hnw : nmS.data.all isWordChar = true) :
    tokAt ('/' :: ':' :: (nmS.data ++ ('+' :: patTail rest))) =
      some (Part.tok true nmS.data .plus, patTail rest) := by
  rcases hd : nmS.data with _ | ⟨c3, ntl⟩
  · exact absurd hd hnd0
  rw [hd] at hnw
  have hc3 : isWordChar c3 = true := List.all_eq_true.mp hnw c3 (by simp)
  rw [show tokAt ('/' :: ':' :: ((c3 :: ntl) ++ ('+' :: patTail rest))) =
    (if isWordChar c3 then some (mkTok true ((c3 :: ntl) ++ ('+' :: patTail rest)))
     else none) from rfl]
  rw [if_pos hc3]
  have hrun := takeWhile_run isWordChar (c3 :: ntl) ('+' :: patTail rest) hnw
    (Or.inr ⟨'+', patTail rest, rfl, by decide⟩)
  rw [show mkTok true ((c3 :: ntl) ++ ('+' :: patTail rest)) =
    (match ((c3 :: ntl) ++ ('+' :: patTail rest)).dropWhile isWordChar with
     | m :: rest2 =>
       if m = '*' then
         (Part.tok true (((c3 :: ntl) ++ ('+' :: patTail rest)).takeWhile isWordChar)
           .star, rest2)
       else if m = '+' then
         (Part.tok true (((c3 :: ntl) ++ ('+' :: patTail rest)).takeWhile isWordChar)
           .plus, rest2)
       else
         (Part.tok true (((c3 :: ntl) ++ ('+' :: patTail rest)).takeWhile isWordChar)
           .plain, m :: rest2)
     | [] =>
       (Part.tok true (((c3 :: ntl) ++ ('+' :: patTail rest)).takeWhile isWordChar)
         .plain, [])) from rfl]
  rw [hrun.1, hrun.2]
  simp

/-- The token starting at an optional-catch-all segment's slot: star
modifier. -/
theorem tokAt_optCatchAll (nmS : String) (rest : List Segment)
    (hnd0 : nmS.data ≠ []) (hnw : nmS.data.all isWordChar = true) :
    tokAt ('/' :: ':' :: (nmS.data ++ ('*' :: patTail rest))) =
      some (Part.tok true nmS.data .star, patTail rest) := by
  rcases hd : nmS.data with _ | ⟨c3, ntl⟩
  · exact absurd hd hnd0
  rw [hd] at hnw
  have hc3 : isWordChar c3 = true := List.all_eq_true.mp hnw c3 (by simp)
  rw [show tokAt ('/' :: ':' :: ((c3 :: ntl) ++ ('*' :: patTail rest))) =
    (if isWordChar c3 then some (mkTok true ((c3 :: ntl) ++ ('*' :: patTail rest)))
     else none) from rfl]
  rw [if_pos hc3]
  have hrun := takeWhile_run isWordChar (c3 :: ntl) ('*' :: patTail rest) hnw
    (Or.inr ⟨'*', patTail rest, rfl, by decide⟩)
  rw [show mkTok true ((c3 :: ntl) ++ ('*' :: patTail rest)) =
    (match ((c3 :: ntl) ++ ('*' :: patTail rest)).dropWhile isWordChar with
     | m :: rest2 =>
       if m = '*' then
         (Part.tok true (((c3 :: ntl) ++ ('*' :: patTail rest)).takeWhile isWordChar)
           .star, rest2)
       else if m = '+' then
         (Part.tok true (((c3 :: ntl) ++ ('*' :: patTail rest)).takeWhile isWordChar)
           .plus, rest2)
       else
         (Part.tok true (((c3 :: ntl) ++ ('*' :: patTail rest)).takeWhile isWordChar)
           .plain, m :: rest2)
     | [] =>
       (Part.tok true (((c3 :: ntl) ++ ('*' :: patTail rest)).takeWhile isWordChar)
         .plain, [])) from rfl]
  rw [hrun.1, hrun.2]
  simp

/-- The compile-time split of a well-formed chain's pattern tail yields
exactly its parts, for any pending literal accumulator and spare fuel. -/
theorem splitGoF_patTail :
    ∀ (chain : List Segment) (k : Nat) (acc : List Char),
      chain.all segOk = true →
      splitGoF ((patTail chain).length + k) acc (patTail chain) =
        partsFor chain acc := by
  intro chain
  induction chain with
  | nil =>
    intro k acc _
    cases k with
    | zero => rfl
    | succ k2 => rfl
  | cons s rest ih =>
    intro k acc hall
    simp only [List.all_cons, Bool.and_eq_true] at hall
    obtain ⟨hs1, hs2⟩ := hall
    rcases s with ⟨raw, ty, nm, lvl⟩
    cases ty <;> simp only [segOk] at hs1 <;> try simp at hs1
    case static =>
      have hraw := okRaw_props raw hs1
      have hlen : (patTail (⟨raw, .static, nm, lvl⟩ :: rest)).length + k =
          (raw.data.length + ((patTail rest).length + k)) + 1 := by
        simp [patTail, tokChars]
        omega
      rw [hlen]
      rw [show patTail (⟨raw, .static, nm, lvl⟩ :: rest) =
        '/' :: (raw.data ++ patTail rest) from rfl]
      have htok : tokAt ('/' :: (raw.data ++ patTail rest)) = none := by
        cases hr : raw.data with
        | nil =>
          rcases patTail_shape rest with hp | ⟨t, hp⟩ <;> rw [hp]
          · rfl
          · exact tokAt_slash_stop _ (Or.inr ⟨'/', t, by simp, by decide⟩)
        | cons c cs =>
          refine tokAt_slash_stop _ (Or.inr ⟨c, cs ++ patTail rest, by simp, ?_⟩)
          exact (hraw c (by rw [hr]; simp)).2
      rw [show splitGoF ((raw.data.length + ((patTail rest).length + k)) + 1) acc
            ('/' :: (raw.data ++ patTail rest)) =
          (match tokAt ('/' :: (raw.data ++ patTail rest)) with
           | some (tk, r) => Part.lit acc.reverse :: tk ::
               splitGoF (raw.data.length + ((patTail rest).length + k)) [] r
           | none => splitGoF (raw.data.length + ((patTail rest).length + k))
               ('/' :: acc) (raw.data ++ patTail rest)) from rfl]
      rw [htok]
      show splitGoF (raw.data.length + ((patTail rest).length + k)) ('/' :: acc)
        (raw.data ++ patTail rest) = _
      rw [splitGoF_skip_raw raw.data ((patTail rest).length + k) ('/' :: acc)
        (patTail rest) hraw]
      rw [ih k (raw.data.reverse ++ '/' :: acc) hs2]
      rfl
    case dynamic =>
      rcases okName_props _ hs1 with ⟨nmS, hnm, hnd0, hnw⟩
      have hnm2 : nm = some nmS := hnm
      subst hnm2
      have hshape : patTail (⟨raw, .dynamic, some nmS, lvl⟩ :: rest) =
          '/' :: ':' :: (nmS.data ++ patTail rest) := by
        simp [patTail, tokChars, nameCh, nameText]
      rw [hshape]
      have hlen : ('/' :: ':' :: (nmS.data ++ patTail rest)).length + k =
          ((patTail rest).length + (k + 1 + nmS.data.length)) + 1 := by
        simp [List.length_cons, List.length_append]
        omega
      rw [hlen]
      rw [show splitGoF (((patTail rest).length + (k + 1 + nmS.data.length)) + 1) acc
            ('/' :: ':' :: (nmS.data ++ patTail rest)) =
          (match tokAt ('/' :: ':' :: (nmS.data ++ patTail rest)) with
           | some (tk, r) => Part.lit acc.reverse :: tk ::
               splitGoF ((patTail rest).length + (k + 1 + nmS.data.length)) [] r
           | none => splitGoF ((patTail rest).length + (k + 1 + nmS.data.length))
               ('/' :: acc) (':' :: (nmS.data ++ patTail rest))) from rfl]
      rw [tokAt_dynamic nmS rest hnd0 hnw]
      show Part.lit acc.reverse :: Part.tok true nmS.data .plain ::
        splitGoF ((patTail rest).length + (k + 1 + nmS.data.length)) []
          (patTail rest) = _
      rw [ih (k + 1 + nmS.data.length) [] hs2]
      rfl
    case catchAll =>
      rcases okName_props _ hs1 with ⟨nmS, hnm, hnd0, hnw⟩
      have hnm2 : nm = some nmS := hnm
      subst hnm2
      have hshape : patTail (⟨raw, .catchAll, some nmS, lvl⟩ :: rest) =
          '/' :: ':' :: (nmS.data ++ ('+' :: patTail rest)) := by
        simp [patTail, tokChars, nameCh, nameText]
      rw [hshape]
      have hlen : ('/' :: ':' :: (nmS.data ++ ('+' :: patTail rest))).length + k =
          ((patTail rest).length + (k + 2 + nmS.data.length)) + 1 := by
        simp [List.length_cons, List.length_append]
        omega
      rw [hlen]
      rw [show splitGoF (((patTail rest).length + (k + 2 + nmS.data.length)) + 1) acc
            ('/' :: ':' :: (nmS.data ++ ('+' :: patTail rest))) =
          (match tokAt ('/' :: ':' :: (nmS.data ++ ('+' :: patTail rest))) with
           | some (tk, r) => Part.lit acc.reverse :: tk ::
               splitGoF ((patTail rest).length + (k + 2 + nmS.data.length)) [] r
           | none => splitGoF ((patTail rest).length + (k + 2 + nmS.data.length))
               ('/' :: acc) (':' :: (nmS.data ++ ('+' :: patTail rest)))) from rfl]
      rw [tokAt_catchAll nmS rest hnd0 hnw]
      show Part.lit acc.reverse :: Part.tok true nmS.data .plus ::
        splitGoF ((patTail rest).length + (k + 2 + nmS.data.length)) []
          (patTail rest) = _
      rw [ih (k + 2 + nmS.data.length) [] hs2]
      rfl
    case optionalCatchAll =>
      rcases okName_props _ hs1 with ⟨nmS, hnm, hnd0, hnw⟩
      have hnm2 : nm = some nmS := hnm
      subst hnm2
      have hshape : patTail (⟨raw, .optionalCatchAll, some nmS, lvl⟩ :: rest) =
          '/' :: ':' :: (nmS.data ++ ('*' :: patTail rest)) := by
        simp [patTail, tokChars, nameCh, nameText]
      rw [hshape]
      have hlen : ('/' :: ':' :: (nmS.data ++ ('*' :: patTail rest))).length + k =
          ((patTail rest).length + (k + 2 + nmS.data.length)) + 1 := by
        simp [List.length_cons, List.length_append]
        omega
      rw [hlen]
      rw [show splitGoF (((patTail rest).length + (k + 2 + nmS.data.length)) + 1) acc
            ('/' :: ':' :: (nmS.data ++ ('*' :: patTail rest))) =
          (match tokAt ('/' :: ':' :: (nmS.data ++ ('*' :: patTail rest))) with
           | some (tk, r) => Part.lit acc.reverse :: tk ::
               splitGoF ((patTail rest).length + (k + 2 + nmS.data.length)) [] r
           | none => splitGoF ((patTail rest).length + (k + 2 + nmS.data.length))
               ('/' :: acc) (':' :: (nmS.data ++ ('*' :: patTail rest)))) from rfl]
      rw [tokAt_optCatchAll nmS rest hnd0 hnw]
      show Part.lit acc.reverse :: Part.tok true nmS.data .star ::
        splitGoF ((patTail rest).length + (k + 2 + nmS.data.length)) []
          (patTail rest) = _
      rw [ih (k + 2 + nmS.data.length) [] hs2]
      rfl

/-- compileParts on a literal part: an empty chunk is skipped, a
non-empty one contributes a literal item. -/
theorem compileParts_lit_cons (L : List Char) (P : List Part) :
    compileParts (Part.lit L :: P) =
      if L = [] then compileParts P
      else (RItem.lit L :: (compileParts P).1, (compileParts P).2) := by
  cases L with
  | nil => first | rfl | simp [compileParts]
  | cons c cs => first | rfl | simp [compileParts]

/-- A descending candidate list with a reachable lower bound starts with
the full-length capture. -/
theorem descList_cons (s : List Char) (hi lo : Nat) (h : lo ≤ hi) :
    ∃ tail, descList s hi lo = (some (s.take hi), s.drop hi) :: tail := by
  unfold descList
  obtain ⟨m, hm⟩ : ∃ m, hi + 1 - lo = m + 1 := ⟨hi - lo, by omega⟩
  rw [hm, List.range_succ_eq_map, List.map_cons, List.map_cons, Nat.sub_zero]
  exact ⟨_, rfl⟩

/-- First candidate of `/([^/]+)` on a slash, a non-empty slash-free run
and a slash-or-end remainder: capture the run, leave the remainder. -/
theorem capCandidates_plain_head (v s' : List Char) (hv : v ≠ [])
    (hvs : ∀ c ∈ v, c ≠ '/') (hs' : s' = [] ∨ ∃ t, s' = '/' :: t) :
    ∃ tail, capCandidates true .plain ('/' :: (v ++ s')) =
      (some v, s') :: tail := by
  have h0 : capCandidates true .plain ('/' :: (v ++ s')) =
      descList (v ++ s') ((v ++ s').takeWhile (fun x => x ≠ '/')).length 1 := rfl
  have hall : v.all (fun x => decide (x ≠ '/')) = true :=
    List.all_eq_true.mpr (fun c hc => by simp [hvs c hc])
  have hB : s' = [] ∨ ∃ c r, s' = c :: r ∧ (decide (c ≠ '/')) = false := by
    rcases hs' with h | ⟨t, h⟩
    · exact Or.inl h
    · exact Or.inr ⟨'/', t, h, by decide⟩
  obtain ⟨h1, _⟩ := takeWhile_run (fun x : Char => decide (x ≠ '/')) v s' hall hB
  rw [h0, h1]
  have hlo : 1 ≤ v.length := by
    cases v with
    | nil => exact absurd rfl hv
    | cons a as => simp
  obtain ⟨tail, ht⟩ := descList_cons (v ++ s') v.length 1 hlo
  rw [ht, List.take_left, List.drop_left]
  exact ⟨tail, rfl⟩

/-- First candidate of `/(.+)` on a slash and a non-empty remainder free
of line terminators (so the dot run covers it all): capture everything. -/
theorem capCandidates_plus_head (s2 : List Char) (h : s2 ≠ [])
    (hLT : ∀ c ∈ s2, isLineTerm c = false) :
    ∃ tail, capCandidates true .plus ('/' :: s2) = (some s2, []) :: tail := by
  have h0 : capCandidates true .plus ('/' :: s2) =
      descList s2 (s2.takeWhile (fun x => !isLineTerm x)).length 1 := rfl
  have hall : s2.all (fun x => !isLineTerm x) = true :=
    List.all_eq_true.mpr (fun c hc => by simp [hLT c hc])
  have htw : s2.takeWhile (fun x : Char => !isLineTerm x) = s2 := by
    have := (takeWhile_run (fun x : Char => !isLineTerm x) s2 []
      hall (Or.inl rfl)).1
    simpa using this
  have hlo : 1 ≤ s2.length := by
    cases s2 with
    | nil => exact absurd rfl h
    | cons a as => simp
  obtain ⟨tail, ht⟩ := descList_cons s2 s2.length 1 hlo
  rw [h0, htw, ht, List.take_length, List.drop_length]
  exact ⟨tail, rfl⟩

/-- First candidate of `(?:/(.*))?` on a slash and a remainder free of
line terminators: capture everything. -/
theorem capCandidates_star_head (s2 : List Char)
    (hLT : ∀ c ∈ s2, isLineTerm c = false) :
    ∃ tail, capCandidates true .star ('/' :: s2) = (some s2, []) :: tail := by
  have h0 : capCandidates true .star ('/' :: s2) =
      descList s2 (s2.takeWhile (fun x => !isLineTerm x)).length 0 ++
        [(none, '/' :: s2)] := rfl
  have hall : s2.all (fun x => !isLineTerm x) = true :=
    List.all_eq_true.mpr (fun c hc => by simp [hLT c hc])
  have htw : s2.takeWhile (fun x : Char => !isLineTerm x) = s2 := by
    have := (takeWhile_run (fun x : Char => !isLineTerm x) s2 []
      hall (Or.inl rfl)).1
    simpa using this
  obtain ⟨tail, ht⟩ := descList_cons s2 s2.length 0 (Nat.zero_le _)
  rw [h0, htw, ht, List.cons_append, List.take_length, List.drop_length]
  exact ⟨_, rfl⟩

/-- A literal item consumes its own text. -/
theorem mItems_lit_step (L : List Char) (rest : List RItem) (R : List Char) :
    mItems ((RItem.lit L :: rest).length + 1) (RItem.lit L :: rest) (L ++ R) =
      mItems (rest.length + 1) rest R := by
  rw [show mItems ((RItem.lit L :: rest).length + 1) (RItem.lit L :: rest) (L ++ R) =
    (if L.isPrefixOf (L ++ R) then
       mItems (rest.length + 1) rest ((L ++ R).drop L.length)
     else none) from rfl]
  rw [isPrefixOf_append_self L R]
  rw [if_pos rfl, List.drop_left]

/-- A capture item whose first candidate lets the remaining items finish
succeeds with that candidate's capture. -/
theorem mItems_cap_head (slash : Bool) (md : TokMod) (rest : List RItem)
    (s : List Char) (capv : Option (List Char)) (s2 : List Char)
    (tail : List (Option (List Char) × List Char))
    (hc : capCandidates slash md s = (capv, s2) :: tail)
    (caps2 : List (Option (List Char)))
    (hrec : mItems (rest.length + 1) rest s2 = some caps2) :
    mItems ((RItem.cap slash md :: rest).length + 1)
      (RItem.cap slash md :: rest) s = some (capv :: caps2) := by
  rw [show mItems ((RItem.cap slash md :: rest).length + 1)
      (RItem.cap slash md :: rest) s =
    (capCandidates slash md s).findSome?
      (fun p => (mItems (rest.length + 1) rest p.2).map
        (fun caps => p.1 :: caps)) from rfl]
  rw [hc, List.findSome?_cons]
  simp [hrec]

/-- A rendered path tail is empty or slash-headed. -/
theorem renderTail_shape (chain : List Segment)
    (ps : List (String × ParamValue)) :
    renderTail chain ps = [] ∨ ∃ t, renderTail chain ps = '/' :: t := by
  cases chain with
  | nil => exact Or.inl rfl
  | cons s rest =>
    rcases s with ⟨raw, ty, nm, lvl⟩
    cases ty
    case static => exact Or.inr ⟨_, rfl⟩
    case dynamic =>
      rcases ps with _ | ⟨⟨pn, pv⟩, ps2⟩
      · exact Or.inl rfl
      rcases pv with v | l
      · exact Or.inr ⟨_, rfl⟩
      · exact Or.inl rfl
    case catchAll =>
      rcases ps with _ | ⟨⟨pn, pv⟩, ps2⟩
      · exact Or.inl rfl
      rcases pv with v | l
      · exact Or.inl rfl
      · exact Or.inr ⟨_, rfl⟩
    case optionalCatchAll =>
      rcases ps with _ | ⟨⟨pn, pv⟩, ps2⟩
      · exact Or.inl rfl
      rcases pv with v | l
      · exact Or.inl rfl
      · exact Or.inr ⟨_, rfl⟩
    all_goals exact Or.inl rfl

/-- A non-degenerate slash join is non-empty. -/
theorem join_ne_nil (a : String) (l : List String) (ha : a.data ≠ []) :
    (String.intercalate "/" (a :: l)).data ≠ [] := by
  intro h
  rw [intercalate_slash_data] at h
  exact ha (List.append_eq_nil.mp h).1

/-- The compiled expression of a well-formed chain matches the rendered
path with exactly the expected captures, for any pending literal
accumulator. -/
theorem mItems_master :
    ∀ (chain : List Segment) (ps : List (String × ParamValue)) (acc : List Char),
      chain.all segOk = true → noCatchBeforeEnd chain = true →
      consistentB chain ps = true →
      mItems ((compileParts (partsFor chain acc)).1.length + 1)
        (compileParts (partsFor chain acc)).1
        (acc.reverse ++ renderTail chain ps) = some (capsOf chain ps) := by
  intro chain
  induction chain with
  | nil =>
    intro ps acc _ _ hcons
    cases ps with
    | cons p ps2 => exact absurd hcons (by simp [consistentB])
    | nil =>
      show mItems ((compileParts [Part.lit acc.reverse]).1.length + 1)
        (compileParts [Part.lit acc.reverse]).1
        (acc.reverse ++ renderTail [] []) = some (capsOf [] [])
      by_cases h : acc.reverse = []
      · rw [compileParts_lit_cons, if_pos h, h]
        rfl
      · rw [compileParts_lit_cons, if_neg h]
        show mItems ((RItem.lit acc.reverse :: []).length + 1)
          (RItem.lit acc.reverse :: []) (acc.reverse ++ []) = some []
        rw [mItems_lit_step acc.reverse [] []]
        rfl
  | cons s rest ih =>
    intro ps acc hall hnc hcons
    simp only [List.all_cons, Bool.and_eq_true] at hall
    obtain ⟨hs1, hs2⟩ := hall
    have hnc2 := noCatchBeforeEnd_tail s rest hnc
    rcases s with ⟨raw, ty, nm, lvl⟩
    cases ty <;> simp only [segOk] at hs1 <;> try simp at hs1
    case static =>
      have hcons2 : consistentB rest ps = true := by
        simpa [consistentB] using hcons
      show mItems
        ((compileParts (partsFor rest (raw.data.reverse ++ '/' :: acc))).1.length + 1)
        (compileParts (partsFor rest (raw.data.reverse ++ '/' :: acc))).1
        (acc.reverse ++ renderTail (⟨raw, .static, nm, lvl⟩ :: rest) ps) =
        some (capsOf rest ps)
      have hstr : acc.reverse ++ renderTail (⟨raw, .static, nm, lvl⟩ :: rest) ps =
          (raw.data.reverse ++ '/' :: acc).reverse ++ renderTail rest ps := by
        simp [renderTail]
      rw [hstr]
      exact ih ps (raw.data.reverse ++ '/' :: acc) hs2 hnc2 hcons2
    case dynamic =>
      rcases okName_props _ hs1 with ⟨nmS, hnm, hnd0, hnw⟩
      have hnm2 : nm = some nmS := hnm
      subst hnm2
      rcases ps with _ | ⟨⟨pname, pv⟩, ps2⟩
      · exact absurd hcons (by simp [consistentB])
      rcases pv with val | l
      swap
      · exact absurd hcons (by simp [consistentB])
      simp only [consistentB, Bool.and_eq_true] at hcons
      obtain ⟨⟨hbeq, hok⟩, hcons2⟩ := hcons
      have hokp := okStr_props val hok
      have hvs : ∀ c ∈ val.data, c ≠ '/' := fun c hc => (hokp.2 c hc).1
      obtain ⟨tl, htl⟩ := capCandidates_plain_head val.data (renderTail rest ps2)
        hokp.1 hvs (renderTail_shape rest ps2)
      have hrec := ih ps2 [] hs2 hnc2 hcons2
      rw [show (([] : List Char).reverse ++ renderTail rest ps2) =
        renderTail rest ps2 from rfl] at hrec
      have hcap := mItems_cap_head true .plain (compileParts (partsFor rest [])).1
        ('/' :: (val.data ++ renderTail rest ps2)) (some val.data)
        (renderTail rest ps2) tl htl (capsOf rest ps2) hrec
      show mItems ((compileParts (Part.lit acc.reverse ::
          Part.tok true nmS.data .plain :: partsFor rest [])).1.length + 1)
        (compileParts (Part.lit acc.reverse ::
          Part.tok true nmS.data .plain :: partsFor rest [])).1
        (acc.reverse ++ ('/' :: (val.data ++ renderTail rest ps2))) =
        some (some val.data :: capsOf rest ps2)
      by_cases h : acc.reverse = []
      · rw [compileParts_lit_cons, if_pos h, h]
        show mItems ((RItem.cap true .plain ::
            (compileParts (partsFor rest [])).1).length + 1)
          (RItem.cap true .plain :: (compileParts (partsFor rest [])).1)
          ('/' :: (val.data ++ renderTail rest ps2)) =
          some (some val.data :: capsOf rest ps2)
        exact hcap
      · rw [compileParts_lit_cons, if_neg h]
        show mItems ((RItem.lit acc.reverse :: RItem.cap true .plain ::
            (compileParts (partsFor rest [])).1).length + 1)
          (RItem.lit acc.reverse :: RItem.cap true .plain ::
            (compileParts (partsFor rest [])).1)
          (acc.reverse ++ ('/' :: (val.data ++ renderTail rest ps2))) =
          some (some val.data :: capsOf rest ps2)
        rw [mItems_lit_step]
        exact hcap
    case catchAll =>
      rcases okName_props _ hs1 with ⟨nmS, hnm, hnd0, hnw⟩
      have hnm2 : nm = some nmS := hnm
      subst hnm2
      have hrest : rest = [] := by
        cases rest with
        | nil => rfl
        | cons t ts =>
          rw [show noCatchBeforeEnd (⟨raw, .catchAll, some nmS, lvl⟩ :: t :: ts) =
            ((SegmentType.catchAll = SegmentType.static ||
              SegmentType.catchAll = SegmentType.dynamic) &&
              noCatchBeforeEnd (t :: ts)) from rfl] at hnc
          simp at hnc
      subst hrest
      rcases ps with _ | ⟨⟨pname, pv⟩, ps2⟩
      · exact absurd hcons (by simp [consistentB])
      rcases pv with val | l
      · exact absurd hcons (by simp [consistentB])
      simp only [consistentB, Bool.and_eq_true] at hcons
      obtain ⟨⟨⟨hbeq, hlen⟩, hallok⟩, hcons2⟩ := hcons
      have hps2 : ps2 = [] := by
        cases ps2 with
        | nil => rfl
        | cons q qs => exact absurd hcons2 (by simp [consistentB])
      subst hps2
      rcases l with _ | ⟨a, l1⟩
      · simp at hlen
      have haok : okStr a = true := by
        have := List.all_eq_true.mp hallok a (by simp)
        simpa using this
      have hJne : (String.intercalate "/" (a :: l1)).data ≠ [] :=
        join_ne_nil a l1 (okStr_props a haok).1
      obtain ⟨tl, htl⟩ :=
        capCandidates_plus_head (String.intercalate "/" (a :: l1)).data hJne
          (join_noLT (a :: l1) hallok)
      have hrec : mItems
          ((compileParts (partsFor ([] : List Segment) ([] : List Char))).1.length + 1)
          (compileParts (partsFor ([] : List Segment) ([] : List Char))).1
          [] = some [] := rfl
      have hcap := mItems_cap_head true .plus
        (compileParts (partsFor ([] : List Segment) ([] : List Char))).1
        ('/' :: (String.intercalate "/" (a :: l1)).data)
        (some (String.intercalate "/" (a :: l1)).data) [] tl htl [] hrec
      have hstr : acc.reverse ++
          renderTail [⟨raw, .catchAll, some nmS, lvl⟩]
            [(pname, ParamValue.arr (a :: l1))] =
          acc.reverse ++ ('/' :: (String.intercalate "/" (a :: l1)).data) := by
        simp [renderTail]
      show mItems ((compileParts (Part.lit acc.reverse ::
          Part.tok true nmS.data .plus :: partsFor [] [])).1.length + 1)
        (compileParts (Part.lit acc.reverse ::
          Part.tok true nmS.data .plus :: partsFor [] [])).1
        (acc.reverse ++ renderTail [⟨raw, .catchAll, some nmS, lvl⟩]
          [(pname, ParamValue.arr (a :: l1))]) =
        some [some (String.intercalate "/" (a :: l1)).data]
      rw [hstr]
      by_cases h : acc.reverse = []
      · rw [compileParts_lit_cons, if_pos h, h]
        show mItems ((RItem.cap true .plus ::
            (compileParts (partsFor ([] : List Segment) ([] : List Char))).1).length + 1)
          (RItem.cap true .plus ::
            (compileParts (partsFor ([] : List Segment) ([] : List Char))).1)
          ('/' :: (String.intercalate "/" (a :: l1)).data) =
          some [some (String.intercalate "/" (a :: l1)).data]
        exact hcap
      · rw [compileParts_lit_cons, if_neg h]
        show mItems ((RItem.lit acc.reverse :: RItem.cap true .plus ::
            (compileParts (partsFor ([] : List Segment) ([] : List Char))).1).length + 1)
          (RItem.lit acc.reverse :: RItem.cap true .plus ::
            (compileParts (partsFor ([] : List Segment) ([] : List Char))).1)
          (acc.reverse ++ ('/' :: (String.intercalate "/" (a :: l1)).data)) =
          some [some (String.intercalate "/" (a :: l1)).data]
        rw [mItems_lit_step]
        exact hcap
    case optionalCatchAll =>
      rcases okName_props _ hs1 with ⟨nmS, hnm, hnd0, hnw⟩
      have hnm2 : nm = some nmS := hnm
      subst hnm2
      have hrest : rest = [] := by
        cases rest with
        | nil => rfl
        | cons t ts =>
          rw [show noCatchBeforeEnd
              (⟨raw, .optionalCatchAll, some nmS, lvl⟩ :: t :: ts) =
            ((SegmentType.optionalCatchAll = SegmentType.static ||
              SegmentType.optionalCatchAll = SegmentType.dynamic) &&
              noCatchBeforeEnd (t :: ts)) from rfl] at hnc
          simp at hnc
      subst hrest
      rcases ps with _ | ⟨⟨pname, pv⟩, ps2⟩
      · exact absurd hcons (by simp [consistentB])
      rcases pv with val | l
      · exact absurd hcons (by simp [consistentB])
      simp only [consistentB, Bool.and_eq_true] at hcons
      obtain ⟨⟨⟨hbeq, hlen⟩, hallok⟩, hcons2⟩ := hcons
      have hps2 : ps2 = [] := by
        cases ps2 with
        | nil => rfl
        | cons q qs => exact absurd hcons2 (by simp [consistentB])
      subst hps2
      rcases l with _ | ⟨a, l1⟩
      · simp at hlen
      obtain ⟨tl, htl⟩ :=
        capCandidates_star_head (String.intercalate "/" (a :: l1)).data
          (join_noLT (a :: l1) hallok)
      have hrec : mItems
          ((compileParts (partsFor ([] : List Segment) ([] : List Char))).1.length + 1)
          (compileParts (partsFor ([] : List Segment) ([] : List Char))).1
          [] = some [] := rfl
      have hcap := mItems_cap_head true .star
        (compileParts (partsFor ([] : List Segment) ([] : List Char))).1
        ('/' :: (String.intercalate "/" (a :: l1)).data)
        (some (String.intercalate "/" (a :: l1)).data) [] tl htl [] hrec
      have hstr : acc.reverse ++
          renderTail [⟨raw, .optionalCatchAll, some nmS, lvl⟩]
            [(pname, ParamValue.arr (a :: l1))] =
          acc.reverse ++ ('/' :: (String.intercalate "/" (a :: l1)).data) := by
        simp [renderTail]
      show mItems ((compileParts (Part.lit acc.reverse ::
          Part.tok true nmS.data .star :: partsFor [] [])).1.length + 1)
        (compileParts (Part.lit acc.reverse ::
          Part.tok true nmS.data .star :: partsFor [] [])).1
        (acc.reverse ++ renderTail [⟨raw, .optionalCatchAll, some nmS, lvl⟩]
          [(pname, ParamValue.arr (a :: l1))]) =
        some [some (String.intercalate "/" (a :: l1)).data]
      rw [hstr]
      by_cases h : acc.reverse = []
      · rw [compileParts_lit_cons, if_pos h, h]
        show mItems ((RItem.cap true .star ::
            (compileParts (partsFor ([] : List Segment) ([] : List Char))).1).length + 1)
          (RItem.cap true .star ::
            (compileParts (partsFor ([] : List Segment) ([] : List Char))).1)
          ('/' :: (String.intercalate "/" (a :: l1)).data) =
          some [some (String.intercalate "/" (a :: l1)).data]
        exact hcap
      · rw [compileParts_lit_cons, if_neg h]
        show mItems ((RItem.lit acc.reverse :: RItem.cap true .star ::
            (compileParts (partsFor ([] : List Segment) ([] : List Char))).1).length + 1)
          (RItem.lit acc.reverse :: RItem.cap true .star ::
            (compileParts (partsFor ([] : List Segment) ([] : List Char))).1)
          (acc.reverse ++ ('/' :: (String.intercalate "/" (a :: l1)).data)) =
          some [some (String.intercalate "/" (a :: l1)).data]
        rw [mItems_lit_step]
        exact hcap

/-- The capture names compile collects for a well-formed chain are the
chain's parameter names in order. -/
theorem compileParts_names :
    ∀ (chain : List Segment) (acc : List Char), chain.all segOk = true →
      (compileParts (partsFor chain acc)).2 = paramNames chain := by
  intro chain
  induction chain with
  | nil =>
    intro acc _
    show (compileParts [Part.lit acc.reverse]).2 = []
    by_cases h : acc.reverse = []
    · rw [compileParts_lit_cons, if_pos h] <;> rfl
    · rw [compileParts_lit_cons, if_neg h] <;> rfl
  | cons s rest ih =>
    intro acc hall
    simp only [List.all_cons, Bool.and_eq_true] at hall
    obtain ⟨hs1, hs2⟩ := hall
    rcases s with ⟨raw, ty, nm, lvl⟩
    cases ty <;> simp only [segOk] at hs1 <;> try simp at hs1
    case static =>
      show (compileParts (partsFor rest (raw.data.reverse ++ '/' :: acc))).2 =
        paramNames rest
      exact ih (raw.data.reverse ++ '/' :: acc) hs2
    case dynamic =>
      show (compileParts (Part.lit acc.reverse ::
        Part.tok true (nameCh ⟨raw, .dynamic, nm, lvl⟩) .plain ::
          partsFor rest [])).2 = nameText nm :: paramNames rest
      by_cases h : acc.reverse = []
      · rw [compileParts_lit_cons, if_pos h]
        show String.mk (nameCh ⟨raw, .dynamic, nm, lvl⟩) ::
          (compileParts (partsFor rest [])).2 = nameText nm :: paramNames rest
        rw [ih [] hs2] <;> rfl
      · rw [compileParts_lit_cons, if_neg h]
        show String.mk (nameCh ⟨raw, .dynamic, nm, lvl⟩) ::
          (compileParts (partsFor rest [])).2 = nameText nm :: paramNames rest
        rw [ih [] hs2] <;> rfl
    case catchAll =>
      show (compileParts (Part.lit acc.reverse ::
        Part.tok true (nameCh ⟨raw, .catchAll, nm, lvl⟩) .plus ::
          partsFor rest [])).2 = nameText nm :: paramNames rest
      by_cases h : acc.reverse = []
      · rw [compileParts_lit_cons, if_pos h]
        show String.mk (nameCh ⟨raw, .catchAll, nm, lvl⟩) ::
          (compileParts (partsFor rest [])).2 = nameText nm :: paramNames rest
        rw [ih [] hs2] <;> rfl
      · rw [compileParts_lit_cons, if_neg h]
        show String.mk (nameCh ⟨raw, .catchAll, nm, lvl⟩) ::
          (compileParts (partsFor rest [])).2 = nameText nm :: paramNames rest
        rw [ih [] hs2] <;> rfl
    case optionalCatchAll =>
      show (compileParts (Part.lit acc.reverse ::
        Part.tok true (nameCh ⟨raw, .optionalCatchAll, nm, lvl⟩) .star ::
          partsFor rest [])).2 = nameText nm :: paramNames rest
      by_cases h : acc.reverse = []
      · rw [compileParts_lit_cons, if_pos h]
        show String.mk (nameCh ⟨raw, .optionalCatchAll, nm, lvl⟩) ::
          (compileParts (partsFor rest [])).2 = nameText nm :: paramNames rest
        rw [ih [] hs2] <;> rfl
      · rw [compileParts_lit_cons, if_neg h]
        show String.mk (nameCh ⟨raw, .optionalCatchAll, nm, lvl⟩) ::
          (compileParts (partsFor rest [])).2 = nameText nm :: paramNames rest
        rw [ih [] hs2] <;> rfl

/-- One step of the foldr behind splitOnSlash. -/
theorem splitOnSlash_cons (c : Char) (t : List Char) :
    splitOnSlash (c :: t) =
      match splitOnSlash t with
      | piece :: more =>
        if c = '/' then [] :: piece :: more else (c :: piece) :: more
      | [] => [] := rfl

/-- splitOnSlash always yields at least one piece. -/
theorem splitOnSlash_ne_nil : ∀ t : List Char, splitOnSlash t ≠ [] := by
  intro t
  induction t with
  | nil => simp [splitOnSlash]
  | cons c cs ih =>
    rw [splitOnSlash_cons]
    rcases hs : splitOnSlash cs with _ | ⟨piece, more⟩
    · exact absurd hs ih
    · by_cases hc : c = '/' <;> simp [hc]

/-- splitOnSlash on slash-free text is the single whole piece. -/
theorem splitOnSlash_slashfree (A : List Char) (hA : ∀ c ∈ A, c ≠ '/') :
    splitOnSlash A = [A] := by
  induction A with
  | nil => rfl
  | cons c cs ih =>
    rw [splitOnSlash_cons, ih (fun x hx => hA x (by simp [hx]))]
    show (if c = '/' then [[], cs] else [c :: cs]) = [c :: cs]
    rw [if_neg (hA c (by simp))]

/-- splitOnSlash splits off a slash-free head piece at its slash. -/
theorem splitOnSlash_append (A B : List Char) (hA : ∀ c ∈ A, c ≠ '/') :
    splitOnSlash (A ++ '/' :: B) = A :: splitOnSlash B := by
  induction A with
  | nil =>
    rw [show (([] : List Char) ++ '/' :: B) = '/' :: B from rfl]
    rw [splitOnSlash_cons]
    rcases hs : splitOnSlash B with _ | ⟨piece, more⟩
    · exact absurd hs (splitOnSlash_ne_nil B)
    · simp
  | cons c cs ih =>
    rw [show ((c :: cs) ++ '/' :: B) = c :: (cs ++ '/' :: B) from rfl]
    rw [splitOnSlash_cons, ih (fun x hx => hA x (by simp [hx]))]
    show (if c = '/' then [] :: cs :: splitOnSlash B
      else (c :: cs) :: splitOnSlash B) = (c :: cs) :: splitOnSlash B
    rw [if_neg (hA c (by simp))]

/-- The split-filter-map pipeline inverts a slash join of well-formed
pieces. -/
theorem splitFilterMap_join :
    ∀ (l : List String), l.all okStr = true → l ≠ [] →
      ((splitOnSlash (String.intercalate "/" l).data).filter
        (fun p => !p.isEmpty)).map String.mk = l := by
  intro l
  induction l with
  | nil => intro _ h; exact absurd rfl h
  | cons a l2 ih =>
    intro hall _
    simp only [List.all_cons, Bool.and_eq_true] at hall
    obtain ⟨haok, hall2⟩ := hall
    have hprops := okStr_props a haok
    have hne : a.data.isEmpty = false := by
      cases hd : a.data
      · exact absurd hd hprops.1
      · rfl
    cases l2 with
    | nil =>
      rw [show (String.intercalate "/" [a]).data = a.data from rfl]
      rw [splitOnSlash_slashfree a.data (fun c hc => (hprops.2 c hc).1)]
      rw [List.filter_cons]
      simp only [hne, Bool.not_false, if_pos]
      try rfl
    | cons b l3 =>
      have hJ : (String.intercalate "/" (a :: b :: l3)).data =
          a.data ++ '/' :: (String.intercalate "/" (b :: l3)).data := by
        rw [intercalate_slash_data, intercalate_slash_data]
        simp
      rw [hJ]
      rw [splitOnSlash_append a.data _ (fun c hc => (hprops.2 c hc).1)]
      rw [List.filter_cons]
      simp only [hne, Bool.not_false, if_pos]
      rw [List.map_cons, ih hall2 (by simp)] <;> rfl

/-- A character not in a list makes contains false. -/
theorem contains_false_of (l : List Char) (c : Char) (h : c ∉ l) :
    l.contains c = false := by
  cases hb : l.contains c
  · rfl
  · exact absurd (List.elem_iff.mp hb) h

/-- A member makes contains true. -/
theorem contains_true_of (l : List Char) (c : Char) (h : c ∈ l) :
    l.contains c = true :=
  List.elem_iff.mpr h

/-- A slash join of at least two pieces contains a slash. -/
theorem join_has_slash (a b : String) (l2 : List String) :
    '/' ∈ (String.intercalate "/" (a :: b :: l2)).data := by
  have hJ : (String.intercalate "/" (a :: b :: l2)).data =
      a.data ++ '/' :: (String.intercalate "/" (b :: l2)).data := by
    rw [intercalate_slash_data, intercalate_slash_data]
    simp
  rw [hJ]
  simp

/-- The params loop on the expected names and captures of a well-formed
chain appends exactly the consistent parameter list, provided no name is
already bound in the accumulator. -/
theorem buildParamsGo_master :
    ∀ (chain : List Segment) (ps acc : List (String × ParamValue)),
      chain.all segOk = true → nodupB (paramNames chain) = true →
      consistentB chain ps = true →
      (∀ name ∈ paramNames chain, (acc.any (fun p => p.1 = name)) = false) →
      buildParamsGo acc (paramNames chain) (capsOf chain ps) = acc ++ ps := by
  intro chain
  induction chain with
  | nil =>
    intro ps acc _ _ hcons _
    cases ps with
    | cons p ps2 => exact absurd hcons (by simp [consistentB])
    | nil => simp [buildParamsGo, paramNames, capsOf]
  | cons s rest ih =>
    intro ps acc hall hnd hcons hfresh
    simp only [List.all_cons, Bool.and_eq_true] at hall
    obtain ⟨hs1, hs2⟩ := hall
    rcases s with ⟨raw, ty, nm, lvl⟩
    cases ty <;> simp only [segOk] at hs1 <;> try simp at hs1
    case static =>
      have hcons2 : consistentB rest ps = true := by
        simpa [consistentB] using hcons
      have hnd2 : nodupB (paramNames rest) = true := by
        simpa [paramNames] using hnd
      have hfresh2 : ∀ name ∈ paramNames rest,
          (acc.any (fun p => p.1 = name)) = false := by
        intro name hn
        exact hfresh name (by simpa [paramNames] using hn)
      show buildParamsGo acc (paramNames rest) (capsOf rest ps) = acc ++ ps
      exact ih ps acc hs2 hnd2 hcons2 hfresh2
    case dynamic =>
      rcases okName_props _ hs1 with ⟨nmS, hnm, hnd0, hnw⟩
      have hnm2 : nm = some nmS := hnm
      subst hnm2
      rcases ps with _ | ⟨⟨pname, pv⟩, ps2⟩
      · exact absurd hcons (by simp [consistentB])
      rcases pv with val | l
      swap
      · exact absurd hcons (by simp [consistentB])
      simp only [consistentB, Bool.and_eq_true] at hcons
      obtain ⟨⟨hbeq, hok⟩, hcons2⟩ := hcons
      have hpn : nmS = pname := by
        have : (some nmS == some pname) = true := hbeq
        simpa using this
      subst hpn
      have hnd' : nodupB (nameText (some nmS) :: paramNames rest) = true := by
        simpa [paramNames] using hnd
      rw [show nodupB (nameText (some nmS) :: paramNames rest) =
        (!memB (nameText (some nmS)) (paramNames rest) &&
          nodupB (paramNames rest)) from rfl, Bool.and_eq_true] at hnd'
      have hmemk : memB nmS (paramNames rest) = false := by
        simpa using hnd'.1
      have hnd2 := hnd'.2
      have hvnos : val.data.contains '/' = false := by
        apply contains_false_of
        intro hc
        exact ((okStr_props val hok).2 '/' hc).1 rfl
      show buildParamsGo acc (nmS :: paramNames rest)
        (some val.data :: capsOf rest ps2) =
        acc ++ ((nmS, ParamValue.str val) :: ps2)
      rw [show buildParamsGo acc (nmS :: paramNames rest)
          (some val.data :: capsOf rest ps2) =
        (if val.data.contains '/' then
          buildParamsGo (paramsAssign acc nmS
            (.arr (splitSlashFilter (String.mk val.data))))
            (paramNames rest) (capsOf rest ps2)
         else
          buildParamsGo (paramsAssign acc nmS (.str (String.mk val.data)))
            (paramNames rest) (capsOf rest ps2)) from rfl]
      rw [hvnos]
      show buildParamsGo (paramsAssign acc nmS (.str (String.mk val.data)))
        (paramNames rest) (capsOf rest ps2) = _
      have hfk : (acc.any (fun p => p.1 = nmS)) = false :=
        hfresh nmS (by simp [paramNames, nameText])
      have hassign : paramsAssign acc nmS (.str (String.mk val.data)) =
          acc ++ [(nmS, ParamValue.str val)] := by
        unfold paramsAssign
        rw [if_neg (by rw [hfk]; simp)]
      rw [hassign]
      have hfresh2 : ∀ name ∈ paramNames rest,
          ((acc ++ [(nmS, ParamValue.str val)]).any
            (fun p => p.1 = name)) = false := by
        intro name hn
        rw [List.any_append]
        have h1 : acc.any (fun p => p.1 = name) = false :=
          hfresh name (by simp [paramNames, hn])
        have h2 : ([(nmS, ParamValue.str val)].any
            (fun p => p.1 = name)) = false := by
          simp only [List.any_cons, List.any_nil, Bool.or_false]
          simp only [decide_eq_false_iff_not]
          intro he
          rw [he] at hmemk
          rw [(memB_iff name (paramNames rest)).mpr hn] at hmemk
          cases hmemk
        rw [h1, h2]
        rfl
      rw [ih ps2 (acc ++ [(nmS, ParamValue.str val)]) hs2 hnd2 hcons2 hfresh2]
      simp
    case catchAll =>
      rcases okName_props _ hs1 with ⟨nmS, hnm, hnd0, hnw⟩
      have hnm2 : nm = some nmS := hnm
      subst hnm2
      rcases ps with _ | ⟨⟨pname, pv⟩, ps2⟩
      · exact absurd hcons (by simp [consistentB])
      rcases pv with val | l
      · exact absurd hcons (by simp [consistentB])
      simp only [consistentB, Bool.and_eq_true] at hcons
      obtain ⟨⟨⟨hbeq, hlen⟩, hallok⟩, hcons2⟩ := hcons
      have hpn : nmS = pname := by
        have : (some nmS == some pname) = true := hbeq
        simpa using this
      subst hpn
      rcases l with _ | ⟨a, l1⟩
      · simp at hlen
      rcases l1 with _ | ⟨b, l2⟩
      · simp at hlen
      have hnd' : nodupB (nameText (some nmS) :: paramNames rest) = true := by
        simpa [paramNames] using hnd
      rw [show nodupB (nameText (some nmS) :: paramNames rest) =
        (!memB (nameText (some nmS)) (paramNames rest) &&
          nodupB (paramNames rest)) from rfl, Bool.and_eq_true] at hnd'
      have hmemk : memB nmS (paramNames rest) = false := by
        simpa using hnd'.1
      have hnd2 := hnd'.2
      have hJs : (String.intercalate "/" (a :: b :: l2)).data.contains '/' = true :=
        contains_true_of _ _ (join_has_slash a b l2)
      show buildParamsGo acc (nmS :: paramNames rest)
        (some (String.intercalate "/" (a :: b :: l2)).data :: capsOf rest ps2) =
        acc ++ ((nmS, ParamValue.arr (a :: b :: l2)) :: ps2)
      rw [show buildParamsGo acc (nmS :: paramNames rest)
          (some (String.intercalate "/" (a :: b :: l2)).data :: capsOf rest ps2) =
        (if (String.intercalate "/" (a :: b :: l2)).data.contains '/' then
          buildParamsGo (paramsAssign acc nmS
            (.arr (splitSlashFilter
              (String.mk (String.intercalate "/" (a :: b :: l2)).data))))
            (paramNames rest) (capsOf rest ps2)
         else
          buildParamsGo (paramsAssign acc nmS
            (.str (String.mk (String.intercalate "/" (a :: b :: l2)).data)))
            (paramNames rest) (capsOf rest ps2)) from rfl]
      rw [hJs]
      show buildParamsGo (paramsAssign acc nmS
        (.arr (splitSlashFilter
          (String.mk (String.intercalate "/" (a :: b :: l2)).data))))
        (paramNames rest) (capsOf rest ps2) = _
      have hsplit : splitSlashFilter
          (String.mk (String.intercalate "/" (a :: b :: l2)).data) =
          a :: b :: l2 := by
        show ((splitOnSlash (String.intercalate "/" (a :: b :: l2)).data).filter
          (fun p => !p.isEmpty)).map String.mk = a :: b :: l2
        exact splitFilterMap_join (a :: b :: l2) hallok (by simp)
      rw [hsplit]
      have hfk : (acc.any (fun p => p.1 = nmS)) = false :=
        hfresh nmS (by simp [paramNames, nameText])
      have hassign : paramsAssign acc nmS (.arr (a :: b :: l2)) =
          acc ++ [(nmS, ParamValue.arr (a :: b :: l2))] := by
        unfold paramsAssign
        rw [if_neg (by rw [hfk]; simp)]
      rw [hassign]
      have hfresh2 : ∀ name ∈ paramNames rest,
          ((acc ++ [(nmS, ParamValue.arr (a :: b :: l2))]).any
            (fun p => p.1 = name)) = false := by
        intro name hn
        rw [List.any_append]
        have h1 : acc.any (fun p => p.1 = name) = false :=
          hfresh name (by simp [paramNames, hn])
        have h2 : ([(nmS, ParamValue.arr (a :: b :: l2))].any
            (fun p => p.1 = name)) = false := by
          simp only [List.any_cons, List.any_nil, Bool.or_false]
          simp only [decide_eq_false_iff_not]
          intro he
          rw [he] at hmemk
          rw [(memB_iff name (paramNames rest)).mpr hn] at hmemk
          cases hmemk
        rw [h1, h2]
        rfl
      rw [ih ps2 (acc ++ [(nmS, ParamValue.arr (a :: b :: l2))]) hs2 hnd2
        hcons2 hfresh2]
      simp
    case optionalCatchAll =>
      rcases okName_props _ hs1 with ⟨nmS, hnm, hnd0, hnw⟩
      have hnm2 : nm = some nmS := hnm
      subst hnm2
      rcases ps with _ | ⟨⟨pname, pv⟩, ps2⟩
      · exact absurd hcons (by simp [consistentB])
      rcases pv with val | l
      · exact absurd hcons (by simp [consistentB])
      simp only [consistentB, Bool.and_eq_true] at hcons
      obtain ⟨⟨⟨hbeq, hlen⟩, hallok⟩, hcons2⟩ := hcons
      have hpn : nmS = pname := by
        have : (some nmS == some pname) = true := hbeq
        simpa using this
      subst hpn
      rcases l with _ | ⟨a, l1⟩
      · simp at hlen
      rcases l1 with _ | ⟨b, l2⟩
      · simp at hlen
      have hnd' : nodupB (nameText (some nmS) :: paramNames rest) = true := by
        simpa [paramNames] using hnd
      rw [show nodupB (nameText (some nmS) :: paramNames rest) =
        (!memB (nameText (some nmS)) (paramNames rest) &&
          nodupB (paramNames rest)) from rfl, Bool.and_eq_true] at hnd'
      have hmemk : memB nmS (paramNames rest) = false := by
        simpa using hnd'.1
      have hnd2 := hnd'.2
      have hJs : (String.intercalate "/" (a :: b :: l2)).data.contains '/' = true :=
        contains_true_of _ _ (join_has_slash a b l2)
      show buildParamsGo acc (nmS :: paramNames rest)
        (some (String.intercalate "/" (a :: b :: l2)).data :: capsOf rest ps2) =
        acc ++ ((nmS, ParamValue.arr (a :: b :: l2)) :: ps2)
      rw [show buildParamsGo acc (nmS :: paramNames rest)
          (some (String.intercalate "/" (a :: b :: l2)).data :: capsOf rest ps2) =
        (if (String.intercalate "/" (a :: b :: l2)).data.contains '/' then
          buildParamsGo (paramsAssign acc nmS
            (.arr (splitSlashFilter
              (String.mk (String.intercalate "/" (a :: b :: l2)).data))))
            (paramNames rest) (capsOf rest ps2)
         else
          buildParamsGo (paramsAssign acc nmS
            (.str (String.mk (String.intercalate "/" (a :: b :: l2)).data)))
            (paramNames rest) (capsOf rest ps2)) from rfl]
      rw [hJs]
      show buildParamsGo (paramsAssign acc nmS
        (.arr (splitSlashFilter
          (String.mk (String.intercalate "/" (a :: b :: l2)).data))))
        (paramNames rest) (capsOf rest ps2) = _
      have hsplit : splitSlashFilter
          (String.mk (String.intercalate "/" (a :: b :: l2)).data) =
          a :: b :: l2 := by
        show ((splitOnSlash (String.intercalate "/" (a :: b :: l2)).data).filter
          (fun p => !p.isEmpty)).map String.mk = a :: b :: l2
        exact splitFilterMap_join (a :: b :: l2) hallok (by simp)
      rw [hsplit]
      have hfk : (acc.any (fun p => p.1 = nmS)) = false :=
        hfresh nmS (by simp [paramNames, nameText])
      have hassign : paramsAssign acc nmS (.arr (a :: b :: l2)) =
          acc ++ [(nmS, ParamValue.arr (a :: b :: l2))] := by
        unfold paramsAssign
        rw [if_neg (by rw [hfk]; simp)]
      rw [hassign]
      have hfresh2 : ∀ name ∈ paramNames rest,
          ((acc ++ [(nmS, ParamValue.arr (a :: b :: l2))]).any
            (fun p => p.1 = name)) = false := by
        intro name hn
        rw [List.any_append]
        have h1 : acc.any (fun p => p.1 = name) = false :=
          hfresh name (by simp [paramNames, hn])
        have h2 : ([(nmS, ParamValue.arr (a :: b :: l2))].any
            (fun p => p.1 = name)) = false := by
          simp only [List.any_cons, List.any_nil, Bool.or_false]
          simp only [decide_eq_false_iff_not]
          intro he
          rw [he] at hmemk
          rw [(memB_iff name (paramNames rest)).mpr hn] at hmemk
          cases hmemk
        rw [h1, h2]
        rfl
      rw [ih ps2 (acc ++ [(nmS, ParamValue.arr (a :: b :: l2))]) hs2 hnd2
        hcons2 hfresh2]
      simp

/-- Matching the rendered path of a non-empty well-formed chain against
its built route reproduces the consistent parameter list exactly. -/
theorem matchRoute_render (s0 : Segment) (rest0 : List Segment)
    (ps : List (String × ParamValue))
    (hseg : (s0 :: rest0).all segOk = true)
    (hnc : noCatchBeforeEnd (s0 :: rest0) = true)
    (hnd : nodupB (paramNames (s0 :: rest0)) = true)
    (hcons : consistentB (s0 :: rest0) ps = true) :
    matchRoute (String.mk (renderTail (s0 :: rest0) ps)) (build (s0 :: rest0)) =
      some ⟨build (s0 :: rest0), ps⟩ := by
  have hcompile : compile (build (s0 :: rest0)).pattern =
      compileParts (partsFor (s0 :: rest0) []) := by
    show compileParts (splitTokens (build (s0 :: rest0)).pattern.data) = _
    rw [build_pattern_data s0 rest0 hseg]
    show compileParts (splitGoF ((patTail (s0 :: rest0)).length + 1) []
      (patTail (s0 :: rest0))) = _
    rw [splitGoF_patTail (s0 :: rest0) 1 [] hseg]
  have hm := mItems_master (s0 :: rest0) ps [] hseg hnc hcons
  have hreg : regexMatch (compileParts (partsFor (s0 :: rest0) [])).1
      (String.mk (renderTail (s0 :: rest0) ps)).data =
      some (capsOf (s0 :: rest0) ps) := hm
  unfold matchRoute
  rw [hcompile, hreg]
  show some (RouteMatch.mk (build (s0 :: rest0)) (buildParamsGo []
    (compileParts (partsFor (s0 :: rest0) [])).2 (capsOf (s0 :: rest0) ps))) =
    some ⟨build (s0 :: rest0), ps⟩
  rw [compileParts_names (s0 :: rest0) [] hseg]
  rw [buildParamsGo_master (s0 :: rest0) ps [] hseg hnd hcons
    (fun name _ => rfl)]
  rw [List.nil_append]

/-- Singleton catch-all chain for the C1 counterexample. -/
def caChain : List Segment :=
  [⟨"[...path]", .catchAll, some "path", none⟩]

/-- C1 counterexample: for the chain `[[...path]]` (pattern `/:path+`) and
the consistent assignment `path = ["a"]` (a non-empty string array for a
catch-all param, as the claim requires), generatePath renders `/a`, but
matching `/a` back yields the scalar string `"a"`, not the original
one-element array — the round trip changes the params map. -/
theorem c1_counterexample_singleton_array :
    generatePath (build caChain).pattern [("path", ParamValue.arr ["a"])] true =
      .ok "/a" ∧
    matchRoute "/a" (build caChain) =
      some ⟨build caChain, [("path", ParamValue.str "a")]⟩ ∧
    [("path", ParamValue.str "a")] ≠ [("path", ParamValue.arr ["a"])] := by
  refine ⟨by rfl, by rfl, by decide⟩

/-- C1 (amended): for every chain of static/dynamic/catch-all-family
segments that is well formed (slash- and colon-free static raws, named
word-character params with pairwise-distinct names, catch-alls only in
final position) and every consistent parameter assignment — values
non-empty and free of `/`, `:`, `$` and line terminators (which the
matcher's dot captures cannot cross), catch-all-family arrays of at
least two elements (so that the captured text contains a slash and is
split back into an array) — generatePath on the built pattern succeeds
and matching the produced path against the built route reproduces
exactly the original params. -/
theorem c1_roundtrip_amended :
    ∀ (chain : List Segment) (ps : List (String × ParamValue)),
      wfChain chain = true → consistentB chain ps = true →
      ∃ path : String,
        generatePath (build chain).pattern ps true = .ok path ∧
        matchRoute path (build chain) = some ⟨build chain, ps⟩ := by
  intro chain ps hwf hcons
  have hwf2 := hwf
  unfold wfChain at hwf2
  simp only [Bool.and_eq_true] at hwf2
  obtain ⟨⟨hseg, hnc⟩, hnd⟩ := hwf2
  cases chain with
  | nil =>
    cases ps with
    | cons p ps2 => exact absurd hcons (by simp [consistentB])
    | nil => exact ⟨"/", by rfl, by rfl⟩
  | cons s0 rest0 =>
    refine ⟨String.mk (renderTail (s0 :: rest0) ps), ?_, ?_⟩
    · have hpat : (build (s0 :: rest0)).pattern =
          String.mk (patTail (s0 :: rest0)) :=
        congrArg String.mk (build_pattern_data s0 rest0 hseg)
      rw [hpat]
      exact generatePath_patTail (s0 :: rest0) ps hseg hnc hnd hcons
    · exact matchRoute_render s0 rest0 ps hseg hnc hnd hcons

/-- Concrete well-formed chain for the C1 witness: `/docs/[id]/[...rest]`. -/
def c1Chain : List Segment :=
  [⟨"docs", .static, none, none⟩, ⟨"[id]", .dynamic, some "id", none⟩,
   ⟨"[...rest]", .catchAll, some "rest", none⟩]

/-- Concrete consistent parameters for the C1 witness. -/
def c1Ps : List (String × ParamValue) :=
  [("id", .str "x"), ("rest", .arr ["a", "b"])]

/-- Witness for the amended C1 round trip at a concrete chain and
parameter list. -/
theorem c1_roundtrip_amended_witness :
    wfChain c1Chain = true ∧ consistentB c1Chain c1Ps = true ∧
    ∃ path : String,
      generatePath (build c1Chain).pattern c1Ps true = .ok path ∧
      matchRoute path (build c1Chain) = some ⟨build c1Chain, c1Ps⟩ :=
  ⟨by decide, by decide, c1_roundtrip_amended c1Chain c1Ps (by decide) (by decide)⟩

end Openspace
